import Mathlib

/-!
Verification of the git-theta clean/smudge pipeline against its source.

Shallow embedding of the parts of `git_theta` exercised by the claims:
nested-dictionary flatten/unflatten (`git_theta/utils.py`), LFS pointer
parsing (`git_theta/metadata.py`), the commit ledger (`git_theta/theta.py`),
the ia3 / sparse / low-rank / dense update plug-ins
(`git_theta/updates/*.py`), the metadata document model and its JSON
serialization (`git_theta/metadata.py`), and the clean filter driver
(`git_theta/filters.py`).

Python dictionaries preserve insertion order, so they are modelled as
ordered association lists; floating point tensors are modelled over `ℚ`
(the algebraic content of the claims); fallible code returns `Option` or
`Except`.
-/

namespace GitTheta

/-! ## Nested dictionaries (`git_theta/utils.py`)

`utils.flatten` / `utils.unflatten` act on nested Python dicts with string
keys.  A nested dict is a leaf value or an ordered association list of
key/value pairs (Python dicts preserve insertion order and have unique
keys).  The default `is_leaf` of `flatten` is "not a dict", which the
`Nested` constructors represent structurally. -/

/-- A Python nested dictionary: a leaf value or an ordered map. -/
inductive Nested (β : Type) : Type where
  | leaf (b : β)
  | dict (entries : List (String × Nested β))
  deriving Repr

/-- The keys of one dictionary level, in insertion order. -/
def keysOf {β : Type} (es : List (String × Nested β)) : List String :=
  es.map Prod.fst

/-- `utils.flatten`: walk the entries of a nested dict accumulating the key
path `pre`; a leaf at key `k` is recorded under the tuple `pre ++ [k]`.
Entries are emitted in dict iteration order, sub-dicts in place, exactly as
the source's `_flatten` builds its result dict. -/
def flattenEntries {β : Type} : List (String × Nested β) → List String → List (List String × β)
  | [], _ => []
  | (k, .leaf b) :: rest, pre => (pre ++ [k], b) :: flattenEntries rest pre
  | (k, .dict es) :: rest, pre => flattenEntries es (pre ++ [k]) ++ flattenEntries rest pre
termination_by es _ => sizeOf es

/-- Python `d[k] = v` on an ordered dict: replace in place if the key is
present, otherwise append at the end. -/
def upsert {β : Type} : List (String × β) → String → β → List (String × β)
  | [], k, v => [(k, v)]
  | (k1, v1) :: rest, k, v =>
      if k1 = k then (k1, v) :: rest else (k1, v1) :: upsert rest k v

/-- Python `d.get(k)` on an ordered dict. -/
def lookupN {β : Type} : List (String × β) → String → Option β
  | [], _ => none
  | (k1, v1) :: rest, k => if k1 = k then some v1 else lookupN rest k

/-- Replace the value stored at `k`, keeping its position (used to model
in-place mutation of a sub-dict reached through a reference). -/
def replaceN {β : Type} : List (String × β) → String → β → List (String × β)
  | [], _, _ => []
  | (k1, v1) :: rest, k, v =>
      if k1 = k then (k1, v) :: rest else (k1, v1) :: replaceN rest k v

/-- One iteration of `utils.unflatten` for a single flattened key `ks` and
value `v`: walk `ks[:-1]` with `curr = curr.setdefault(k, {})` (appending a
fresh dict when the key is new, failing when a non-dict is hit, as Python
raises there) and finally assign `curr[ks[-1]] = v`.  `none` models the
`IndexError`/`TypeError` Python raises on an empty key tuple or on walking
into a leaf. -/
def insertPath {β : Type} : List (String × Nested β) → List String → β → Option (List (String × Nested β))
  | _, [], _ => none
  | es, [k], v => some (upsert es k (.leaf v))
  | es, k :: k2 :: ks, v =>
      match lookupN es k with
      | none => (fun sub => es ++ [(k, .dict sub)]) <$> insertPath [] (k2 :: ks) v
      | some (.dict sub) => (fun sub2 => replaceN es k (.dict sub2)) <$> insertPath sub (k2 :: ks) v
      | some (.leaf _) => none

/-- `utils.unflatten`: fold `insertPath` over the flattened items in order,
starting from the empty dict. -/
def unflatten {β : Type} (l : List (List String × β)) : Option (List (String × Nested β)) :=
  l.foldlM (fun es pv => insertPath es pv.1 pv.2) []

/-- Well-formedness of a nested dict value: every dict level has unique keys
(automatic for a Python dict) and no sub-dictionary is empty. -/
inductive WFVal {β : Type} : Nested β → Prop where
  | leaf (b : β) : WFVal (.leaf b)
  | dict (es : List (String × Nested β)) (hne : es ≠ [])
      (hnd : (keysOf es).Nodup) (h : ∀ p ∈ es, WFVal p.2) : WFVal (.dict es)

/-- Well-formedness of a top-level nested dict (the root itself may be
empty). -/
def WFEntries {β : Type} (es : List (String × Nested β)) : Prop :=
  (keysOf es).Nodup ∧ ∀ p ∈ es, WFVal p.2

end GitTheta

namespace GitTheta

/-- Folding `insertPath` over flattened items starting from an arbitrary
accumulated dict (the body of `utils.unflatten`). -/
def foldInsert {β : Type} (acc : List (String × Nested β)) (l : List (List String × β)) :
    Option (List (String × Nested β)) :=
  l.foldlM (fun es pv => insertPath es pv.1 pv.2) acc

theorem unflatten_eq_foldInsert {β : Type} (l : List (List String × β)) :
    unflatten l = foldInsert [] l := rfl

theorem foldInsert_nil {β : Type} (acc : List (String × Nested β)) :
    foldInsert acc [] = some acc := rfl

theorem foldInsert_cons {β : Type} (acc : List (String × Nested β)) (pv : List String × β)
    (l : List (List String × β)) :
    foldInsert acc (pv :: l) = (insertPath acc pv.1 pv.2).bind (fun es => foldInsert es l) := by
  simp [foldInsert, List.foldlM_cons, Option.bind_eq_bind]

theorem foldInsert_append {β : Type} (acc : List (String × Nested β))
    (l₁ l₂ : List (List String × β)) :
    foldInsert acc (l₁ ++ l₂) = (foldInsert acc l₁).bind (fun es => foldInsert es l₂) := by
  induction l₁ generalizing acc with
  | nil => simp [foldInsert_nil]
  | cons pv l₁ ih =>
      rw [List.cons_append, foldInsert_cons, foldInsert_cons]
      cases insertPath acc pv.1 pv.2 with
      | none => simp
      | some es => simp [ih es]

theorem lookupN_eq_none_iff {β : Type} (l : List (String × β)) (k : String) :
    lookupN l k = none ↔ k ∉ l.map Prod.fst := by
  induction l with
  | nil => simp [lookupN]
  | cons p rest ih =>
      by_cases h : p.1 = k
      · simp [lookupN, h]
      · simp only [lookupN, h, if_false, List.map_cons, List.mem_cons, ih]
        constructor
        · intro hn hc
          rcases hc with hc | hc
          · exact h hc.symm
          · exact hn hc
        · intro hn
          exact fun hc => hn (Or.inr hc)

theorem upsert_of_not_mem {β : Type} (l : List (String × β)) (k : String) (v : β)
    (h : lookupN l k = none) : upsert l k v = l ++ [(k, v)] := by
  induction l with
  | nil => simp [upsert]
  | cons p rest ih =>
      rw [lookupN_eq_none_iff] at h
      simp only [List.map_cons, List.mem_cons] at h
      push_neg at h
      have h1 : p.1 ≠ k := fun hc => h.1 hc.symm
      have h2 : lookupN rest k = none := (lookupN_eq_none_iff rest k).mpr h.2
      simp [upsert, h1, ih h2]

theorem lookupN_append_singleton {β : Type} (l : List (String × β)) (k : String) (v : β)
    (h : lookupN l k = none) : lookupN (l ++ [(k, v)]) k = some v := by
  induction l with
  | nil => simp [lookupN]
  | cons p rest ih =>
      rw [lookupN_eq_none_iff] at h
      simp only [List.map_cons, List.mem_cons] at h
      push_neg at h
      have h1 : p.1 ≠ k := fun hc => h.1 hc.symm
      have h2 : lookupN rest k = none := (lookupN_eq_none_iff rest k).mpr h.2
      simp [lookupN, h1, ih h2]

theorem replaceN_append_singleton {β : Type} (l : List (String × β)) (k : String) (v w : β)
    (h : lookupN l k = none) : replaceN (l ++ [(k, v)]) k w = l ++ [(k, w)] := by
  induction l with
  | nil => simp [replaceN]
  | cons p rest ih =>
      rw [lookupN_eq_none_iff] at h
      simp only [List.map_cons, List.mem_cons] at h
      push_neg at h
      have h1 : p.1 ≠ k := fun hc => h.1 hc.symm
      have h2 : lookupN rest k = none := (lookupN_eq_none_iff rest k).mpr h.2
      simp [replaceN, h1, ih h2]

end GitTheta

namespace GitTheta

theorem flattenEntries_under {β : Type} : ∀ (es : List (String × Nested β)) (pre : List String),
    flattenEntries es pre = (flattenEntries es []).map (fun pb => (pre ++ pb.1, pb.2))
  | [], pre => by simp [flattenEntries]
  | (k, .leaf b) :: rest, pre => by
      simp only [flattenEntries]
      rw [flattenEntries_under rest pre, flattenEntries_under rest []]
      simp
  | (k, .dict sub) :: rest, pre => by
      simp only [flattenEntries]
      rw [flattenEntries_under sub (pre ++ [k]), flattenEntries_under sub ([] ++ [k]),
        flattenEntries_under rest pre]
      simp [Function.comp]
termination_by es _ => sizeOf es

theorem flattenEntries_paths_ne_nil {β : Type} :
    ∀ (es : List (String × Nested β)) (pre : List String) (pb : List String × β),
    pb ∈ flattenEntries es pre → pb.1 ≠ []
  | [], pre, pb => by simp [flattenEntries]
  | (k, .leaf b) :: rest, pre, pb => by
      simp only [flattenEntries]
      intro hmem
      rcases List.mem_cons.mp hmem with h | h
      · subst h; simp
      · exact flattenEntries_paths_ne_nil rest pre pb h
  | (k, .dict sub) :: rest, pre, pb => by
      simp only [flattenEntries]
      intro hmem
      rcases List.mem_append.mp hmem with h | h
      · exact flattenEntries_paths_ne_nil sub (pre ++ [k]) pb h
      · exact flattenEntries_paths_ne_nil rest pre pb h
termination_by es _ _ => sizeOf es

theorem flattenEntries_ne_nil {β : Type} :
    ∀ (es : List (String × Nested β)) (pre : List String), es ≠ [] →
    (∀ p ∈ es, WFVal p.2) → flattenEntries es pre ≠ []
  | [], _, hne, _ => absurd rfl hne
  | (k, .leaf b) :: rest, pre, _, _ => by simp only [flattenEntries]; simp
  | (k, .dict sub) :: rest, pre, _, hwf => by
      simp only [flattenEntries]
      have hw : WFVal (Nested.dict sub) := hwf (k, .dict sub) (by simp)
      cases hw with
      | dict _ hne1 _ h1 =>
          intro hcon
          exact flattenEntries_ne_nil sub (pre ++ [k]) hne1 h1 (List.append_eq_nil.mp hcon).1
termination_by es _ => sizeOf es

end GitTheta

namespace GitTheta

theorem keysOf_cons {β : Type} (k : String) (v : Nested β) (rest : List (String × Nested β)) :
    keysOf ((k, v) :: rest) = k :: keysOf rest := rfl

theorem lookupN_append_none {β : Type} (l1 l2 : List (String × β)) (k : String)
    (h1 : lookupN l1 k = none) (h2 : lookupN l2 k = none) : lookupN (l1 ++ l2) k = none := by
  induction l1 with
  | nil => simpa using h2
  | cons p rest ih =>
      by_cases hc : p.1 = k
      · rw [lookupN_eq_none_iff] at h1
        exact absurd (by simp [hc]) h1
      · have h1r : lookupN rest k = none := by
          rw [lookupN_eq_none_iff] at h1 ⊢
          intro hm
          exact h1 (by simp [hm])
        simpa [lookupN, hc] using ih h1r

theorem foldInsert_group_step {β : Type} (acc : List (String × Nested β)) (k : String)
    (hk : lookupN acc k = none) :
    ∀ (fl : List (List String × β)) (d : List (String × Nested β)),
    (∀ pb ∈ fl, pb.1 ≠ []) →
    foldInsert (acc ++ [(k, .dict d)]) (fl.map (fun pb => (k :: pb.1, pb.2))) =
      (foldInsert d fl).map (fun sub => acc ++ [(k, .dict sub)])
  | [], d, _ => by simp [foldInsert_nil]
  | (p, v) :: fl, d, hne => by
      obtain ⟨p1, ps, rfl⟩ : ∃ p1 ps, p = p1 :: ps := by
        cases p with
        | nil => exact absurd rfl (hne ([], v) (by simp))
        | cons p1 ps => exact ⟨p1, ps, rfl⟩
      rw [List.map_cons, foldInsert_cons, foldInsert_cons]
      cases hip : insertPath d (p1 :: ps) v with
      | none =>
          have hstep : insertPath (acc ++ [(k, Nested.dict d)]) (k :: p1 :: ps) v = none := by
            simp only [insertPath, lookupN_append_singleton acc k _ hk, hip, Option.map_none]
          simp [hstep, hip]
      | some d2 =>
          have hstep : insertPath (acc ++ [(k, Nested.dict d)]) (k :: p1 :: ps) v =
              some (acc ++ [(k, Nested.dict d2)]) := by
            simp only [insertPath, lookupN_append_singleton acc k _ hk, hip, Option.map_some,
              replaceN_append_singleton acc k _ _ hk]
          rw [hstep]
          simp only [hip, Option.map_some, Option.some_bind]
          exact foldInsert_group_step acc k hk fl d2 (fun pb hpb => hne pb (by simp [hpb]))

theorem foldInsert_group {β : Type} (acc : List (String × Nested β)) (k : String)
    (fl : List (List String × β)) (hk : lookupN acc k = none)
    (hne : ∀ pb ∈ fl, pb.1 ≠ []) (hfl : fl ≠ []) :
    foldInsert acc (fl.map (fun pb => (k :: pb.1, pb.2))) =
      (foldInsert [] fl).map (fun sub => acc ++ [(k, .dict sub)]) := by
  cases fl with
  | nil => exact absurd rfl hfl
  | cons pv fl =>
      obtain ⟨p, v⟩ := pv
      obtain ⟨p1, ps, rfl⟩ : ∃ p1 ps, p = p1 :: ps := by
        cases p with
        | nil => exact absurd rfl (hne ([], v) (by simp))
        | cons p1 ps => exact ⟨p1, ps, rfl⟩
      rw [List.map_cons, foldInsert_cons, foldInsert_cons]
      cases hip : insertPath [] (p1 :: ps) v with
      | none =>
          have hstep : insertPath acc (k :: p1 :: ps) v = none := by
            simp only [insertPath, hk, hip, Option.map_none]
          simp [hstep, hip]
      | some d0 =>
          have hstep : insertPath acc (k :: p1 :: ps) v =
              some (acc ++ [(k, Nested.dict d0)]) := by
            simp only [insertPath, hk, hip, Option.map_some]
          rw [hstep]
          simp only [hip, Option.map_some, Option.some_bind]
          exact foldInsert_group_step acc k hk fl d0 (fun pb hpb => hne pb (by simp [hpb]))

/-- Core roundtrip: folding the flattened items of a well-formed nested dict
into an accumulator whose keys are disjoint appends the dict verbatim. -/
theorem foldInsert_flatten {β : Type} :
    ∀ (es : List (String × Nested β)) (acc : List (String × Nested β)),
    (keysOf es).Nodup → (∀ p ∈ es, WFVal p.2) →
    (∀ k ∈ keysOf es, lookupN acc k = none) →
    foldInsert acc (flattenEntries es []) = some (acc ++ es)
  | [], acc, _, _, _ => by simp [flattenEntries, foldInsert_nil]
  | (k, .leaf b) :: rest, acc, hnd, hwf, hdisj => by
      simp only [flattenEntries]
      rw [foldInsert_cons]
      have hk : lookupN acc k = none := hdisj k (by simp [keysOf])
      have h1 : insertPath acc ([] ++ [k]) b = some (acc ++ [(k, Nested.leaf b)]) := by
        simp only [List.nil_append, insertPath]
        rw [upsert_of_not_mem acc k _ hk]
      rw [h1]
      simp only [Option.some_bind]
      have hnd2 : (keysOf rest).Nodup := by
        simpa [keysOf] using hnd.of_cons
      have hkrest : k ∉ keysOf rest := by
        have := hnd
        simp only [keysOf, List.map_cons, List.nodup_cons] at this
        exact this.1
      have hdisj2 : ∀ k2 ∈ keysOf rest, lookupN (acc ++ [(k, Nested.leaf b)]) k2 = none := by
        intro k2 hk2
        refine lookupN_append_none acc _ k2
          (hdisj k2 (by rw [keysOf_cons]; exact List.mem_cons.mpr (Or.inr hk2))) ?_
        have hkk : k ≠ k2 := fun hc => hkrest (hc ▸ hk2)
        simp [lookupN, hkk]
      rw [foldInsert_flatten rest (acc ++ [(k, Nested.leaf b)]) hnd2
        (fun p hp => hwf p (by simp [hp])) hdisj2]
      simp
  | (k, .dict sub) :: rest, acc, hnd, hwf, hdisj => by
      simp only [flattenEntries]
      rw [flattenEntries_under sub ([] ++ [k]), foldInsert_append]
      have hwsub : WFVal (Nested.dict sub) := hwf (k, .dict sub) (by simp)
      have hk : lookupN acc k = none := hdisj k (by simp [keysOf])
      cases hwsub with
      | dict _ hne1 hnd1 hwf1 =>
          have hsub : foldInsert [] (flattenEntries sub []) = some sub := by
            have := foldInsert_flatten sub [] hnd1 hwf1 (by intro _ _; rfl)
            simpa using this
          have hgrp : foldInsert acc
              ((flattenEntries sub []).map (fun pb => ([] ++ [k] ++ pb.1, pb.2))) =
              some (acc ++ [(k, Nested.dict sub)]) := by
            have heq : ((flattenEntries sub []).map (fun pb => ([] ++ [k] ++ pb.1, pb.2))) =
                ((flattenEntries sub []).map (fun pb => (k :: pb.1, pb.2))) := by
              simp
            rw [heq, foldInsert_group acc k (flattenEntries sub []) hk
              (fun pb hpb => flattenEntries_paths_ne_nil sub [] pb hpb)
              (flattenEntries_ne_nil sub [] hne1 hwf1), hsub]
            simp
          rw [hgrp]
          simp only [Option.some_bind]
          have hnd2 : (keysOf rest).Nodup := by
            simpa [keysOf] using hnd.of_cons
          have hkrest : k ∉ keysOf rest := by
            have := hnd
            simp only [keysOf, List.map_cons, List.nodup_cons] at this
            exact this.1
          have hdisj2 : ∀ k2 ∈ keysOf rest, lookupN (acc ++ [(k, Nested.dict sub)]) k2 = none := by
            intro k2 hk2
            refine lookupN_append_none acc _ k2
              (hdisj k2 (by rw [keysOf_cons]; exact List.mem_cons.mpr (Or.inr hk2))) ?_
            have hkk : k ≠ k2 := fun hc => hkrest (hc ▸ hk2)
            simp [lookupN, hkk]
          rw [foldInsert_flatten rest (acc ++ [(k, Nested.dict sub)]) hnd2
            (fun p hp => hwf p (by simp [hp])) hdisj2]
          simp
termination_by es _ => sizeOf es

end GitTheta

namespace GitTheta

/-- C10: for every nested dictionary `d` with non-dictionary leaves and no
empty sub-dictionary, `unflatten (flatten d) = d` (`utils.flatten` maps each
leaf to its tuple of path keys and `utils.unflatten` inverts it); the
round-trip fails when `d` contains an empty sub-dictionary, because
`flatten` silently drops it, witnessed by the dictionary
`\x7b"a": \x7b\x7d\x7d`. -/
theorem utils_flatten_unflatten_roundtrip :
    (∀ (β : Type) (es : List (String × Nested β)), WFEntries es →
      unflatten (flattenEntries es []) = some es) ∧
    unflatten (flattenEntries [("a", Nested.dict ([] : List (String × Nested Nat)))] []) ≠
      some [("a", Nested.dict [])] := by
  constructor
  · intro β es hwf
    rw [unflatten_eq_foldInsert]
    simpa using foldInsert_flatten es [] hwf.1 hwf.2 (fun _ _ => rfl)
  · intro hcon
    have h1 : flattenEntries [("a", Nested.dict ([] : List (String × Nested Nat)))] [] = [] := by
      simp [flattenEntries]
    rw [h1, show unflatten ([] : List (List String × Nat)) = some [] from rfl] at hcon
    simp at hcon

/-- Witness for C10: the round-trip evaluated on a concrete two-level
dictionary with no empty sub-dictionary. -/
theorem utils_flatten_unflatten_roundtrip_witness :
    unflatten (flattenEntries [("a", Nested.leaf (1 : Nat)),
        ("b", Nested.dict [("c", Nested.leaf 2)])] []) =
      some [("a", Nested.leaf 1), ("b", Nested.dict [("c", Nested.leaf 2)])] :=
  utils_flatten_unflatten_roundtrip.1 Nat _
    ⟨by decide, by
      intro p hp
      rcases List.mem_cons.mp hp with h | h
      · subst h; exact WFVal.leaf _
      · rcases List.mem_cons.mp h with h2 | h2
        · subst h2
          refine WFVal.dict _ (by simp) (by decide) ?_
          intro q hq
          rcases List.mem_cons.mp hq with h3 | h3
          · subst h3; exact WFVal.leaf _
          · simp at h3
        · simp at h2⟩

end GitTheta

namespace GitTheta

/-! ## LFS pointer documents (`git_theta/metadata.py`, `LfsMetadata`)

`LfsMetadata.from_pointer` applies
`re.match(r"^version (?P<version>[^\s]+)\noid sha256:(?P<oid>[0-9a-f]{64})\nsize (?P<size>[0-9]+)\n$", p)`
and raises `ValueError` when it returns `None`.  The parser below is the
deterministic equivalent of that regular expression under Python `re`
semantics: each quantified class is followed by a character outside the
class, so greedy matching without backtracking is exact, and the final `$`
matches at the end of the string or just before one final newline (Python,
without `re.MULTILINE`). -/

/-- Python `\s` on the ASCII range (the characters relevant to this
grammar). -/
def pyWhitespace (c : Char) : Bool :=
  c = ' ' || c = '\t' || c = '\n' || c = '\r' || c = '\x0b' || c = '\x0c'

/-- The character class `[0-9a-f]`. -/
def isHexLower (c : Char) : Bool :=
  ('0' ≤ c && c ≤ '9') || ('a' ≤ c && c ≤ 'f')

/-- Consume an exact literal, returning the rest. -/
def stripExact : List Char → List Char → Option (List Char)
  | [], cs => some cs
  | _ :: _, [] => none
  | l :: ls, c :: cs => if c = l then stripExact ls cs else none

/-- Consume exactly `n` characters of class `p`. -/
def takeExactly (p : Char → Bool) : Nat → List Char → Option (List Char × List Char)
  | 0, cs => some ([], cs)
  | _ + 1, [] => none
  | n + 1, c :: cs =>
      if p c then (fun pr => (c :: pr.1, pr.2)) <$> takeExactly p n cs else none

/-- Python `$` (no `re.MULTILINE`): end of string, or just before a final
newline. -/
def dollarAccepts (cs : List Char) : Bool := cs.isEmpty || cs == ['\n']

/-- `LfsMetadata.from_pointer`: parse the pointer grammar, returning the
`(version, oid, size)` groups; `none` models the `ValueError` raised when
the regex does not match. -/
def fromPointer (s : String) : Option (String × String × String) :=
  (stripExact ("version ".data) s.data).bind fun cs1 =>
    let v := cs1.takeWhile (fun c => !pyWhitespace c)
    let cs2 := cs1.dropWhile (fun c => !pyWhitespace c)
    if v.isEmpty then none else
    (stripExact ("\noid sha256:".data) cs2).bind fun cs3 =>
      (takeExactly isHexLower 64 cs3).bind fun pr =>
        (stripExact ("\nsize ".data) pr.2).bind fun cs5 =>
          let n := cs5.takeWhile Char.isDigit
          let cs6 := cs5.dropWhile Char.isDigit
          if n.isEmpty then none else
          (stripExact ("\n".data) cs6).bind fun cs7 =>
            if dollarAccepts cs7 then some (⟨v⟩, ⟨pr.1⟩, ⟨n⟩) else none

/-- `LfsMetadata.lfs_pointer`: the canonical pointer text
`version <v>\noid sha256:<oid>\nsize <size>\n`. -/
def lfsPointer (v o n : String) : String :=
  "version " ++ v ++ "\noid sha256:" ++ o ++ "\nsize " ++ n ++ "\n"

/-- Well-formed pointer components: nonempty whitespace-free version, a
64-character lowercase-hex oid, a nonempty digit string size. -/
def WFPointerComponents (v o n : String) : Prop :=
  v.data ≠ [] ∧ (∀ c ∈ v.data, pyWhitespace c = false) ∧
  o.data.length = 64 ∧ (∀ c ∈ o.data, isHexLower c = true) ∧
  n.data ≠ [] ∧ (∀ c ∈ n.data, c.isDigit = true)

/-- The pointer grammar exactly as the claim words it: the three-line
document with nothing after the final (included) newline.  Spec-side
definition used to compare the code's parser with the claimed grammar. -/
def matchesStrictPointer (s : String) : Prop :=
  ∃ v o n, WFPointerComponents v o n ∧ s = lfsPointer v o n

end GitTheta

namespace GitTheta

theorem stripExact_self_append : ∀ (l cs : List Char), stripExact l (l ++ cs) = some cs
  | [], cs => rfl
  | c :: ls, cs => by simp [stripExact, stripExact_self_append ls cs]

theorem stripExact_eq_some : ∀ (l cs cs2 : List Char), stripExact l cs = some cs2 → cs = l ++ cs2
  | [], cs, cs2, h => by simpa [stripExact] using h
  | l :: ls, [], cs2, h => by simp [stripExact] at h
  | l :: ls, c :: cs, cs2, h => by
      by_cases hc : c = l
      · simp only [stripExact, hc, if_true] at h
        simp [hc, stripExact_eq_some ls cs cs2 h]
      · simp [stripExact, hc] at h

theorem takeExactly_eq_some : ∀ (p : Char → Bool) (k : Nat) (cs xs rest : List Char),
    takeExactly p k cs = some (xs, rest) →
    cs = xs ++ rest ∧ xs.length = k ∧ ∀ c ∈ xs, p c = true
  | p, 0, cs, xs, rest, h => by
      simp only [takeExactly, Option.some_inj, Prod.mk.injEq] at h
      obtain ⟨h1, h2⟩ := h
      subst h1
      subst h2
      simp
  | p, k + 1, [], xs, rest, h => by simp [takeExactly] at h
  | p, k + 1, c :: cs, xs, rest, h => by
      by_cases hc : p c
      · simp only [takeExactly, hc, if_true] at h
        cases hrec : takeExactly p k cs with
        | none => rw [hrec] at h; simp at h
        | some pr =>
            rw [hrec] at h
            simp only [Option.map_some, Option.some_inj, Prod.mk.injEq] at h
            obtain ⟨h1, h2⟩ := h
            obtain ⟨hcs, hlen, hall⟩ := takeExactly_eq_some p k cs pr.1 pr.2 (by rw [hrec])
            subst h2
            constructor
            · rw [← h1]; simp [hcs]
            · constructor
              · rw [← h1]; simp [hlen]
              · intro x hx
                rw [← h1] at hx
                rcases List.mem_cons.mp hx with h3 | h3
                · exact h3 ▸ hc
                · exact hall x h3
      · simp [takeExactly, hc] at h

theorem takeExactly_self_append : ∀ (p : Char → Bool) (xs rest : List Char),
    (∀ c ∈ xs, p c = true) → takeExactly p xs.length (xs ++ rest) = some (xs, rest)
  | p, [], rest, _ => rfl
  | p, c :: xs, rest, hall => by
      have hc : p c = true := hall c (by simp)
      have ih := takeExactly_self_append p xs rest (fun x hx => hall x (by simp [hx]))
      simp only [List.length_cons, List.cons_append, takeExactly, hc, if_true]
      rw [show xs.append rest = xs ++ rest from rfl, ih]
      rfl

theorem takeWhile_middle (p : Char → Bool) (l : List Char) (c : Char) (r : List Char)
    (hall : ∀ x ∈ l, p x = true) (hc : p c = false) :
    List.takeWhile p (l ++ c :: r) = l ∧ List.dropWhile p (l ++ c :: r) = c :: r := by
  induction l with
  | nil => simp [List.takeWhile_cons, List.dropWhile_cons, hc]
  | cons a l ih =>
      have ha : p a = true := hall a (by simp)
      have ihh := ih (fun x hx => hall x (by simp [hx]))
      simp [List.takeWhile_cons, List.dropWhile_cons, ha, ihh.1, ihh.2]

end GitTheta

namespace GitTheta

theorem pyWhitespace_newline : pyWhitespace '\n' = true := rfl

theorem fromPointer_some_elim (s v o n : String) (h : fromPointer s = some (v, o, n)) :
    WFPointerComponents v o n ∧ (s = lfsPointer v o n ∨ s = lfsPointer v o n ++ "\n") := by
  simp only [fromPointer] at h
  cases h1 : stripExact ("version ".data) s.data with
  | none => rw [h1] at h; simp at h
  | some cs1 =>
  rw [h1] at h
  simp only [Option.some_bind] at h
  by_cases hv : (cs1.takeWhile (fun c => !pyWhitespace c)).isEmpty
  · rw [if_pos hv] at h; simp at h
  rw [if_neg hv] at h
  cases h2 : stripExact ("\noid sha256:".data) (cs1.dropWhile (fun c => !pyWhitespace c)) with
  | none => rw [h2] at h; simp at h
  | some cs3 =>
  rw [h2] at h
  simp only [Option.some_bind] at h
  cases h3 : takeExactly isHexLower 64 cs3 with
  | none => rw [h3] at h; simp at h
  | some pr =>
  rw [h3] at h
  simp only [Option.some_bind] at h
  cases h4 : stripExact ("\nsize ".data) pr.2 with
  | none => rw [h4] at h; simp at h
  | some cs5 =>
  rw [h4] at h
  simp only [Option.some_bind] at h
  by_cases hn : (cs5.takeWhile Char.isDigit).isEmpty
  · rw [if_pos hn] at h; simp at h
  rw [if_neg hn] at h
  cases h5 : stripExact ("\n".data) (cs5.dropWhile Char.isDigit) with
  | none => rw [h5] at h; simp at h
  | some cs7 =>
  rw [h5] at h
  simp only [Option.some_bind] at h
  by_cases hd : dollarAccepts cs7
  swap
  · rw [if_neg hd] at h; simp at h
  rw [if_pos hd] at h
  simp only [Option.some_inj, Prod.mk.injEq] at h
  obtain ⟨hveq, hoeq, hneq⟩ := h
  have hvdata : v.data = cs1.takeWhile (fun c => !pyWhitespace c) := by rw [← hveq]
  have hodata : o.data = pr.1 := by rw [← hoeq]
  have hndata : n.data = cs5.takeWhile Char.isDigit := by rw [← hneq]
  have hsdata : s.data = "version ".data ++ cs1 := stripExact_eq_some _ _ _ h1
  have hcs1 : cs1 = v.data ++ cs1.dropWhile (fun c => !pyWhitespace c) := by
    rw [hvdata]
    exact (List.takeWhile_append_dropWhile (p := fun c => !pyWhitespace c) (l := cs1)).symm
  have hcs2 : cs1.dropWhile (fun c => !pyWhitespace c) = "\noid sha256:".data ++ cs3 :=
    stripExact_eq_some _ _ _ h2
  obtain ⟨hcs3, holen, hoall⟩ := takeExactly_eq_some isHexLower 64 cs3 pr.1 pr.2 (by rw [h3])
  have hcs4 : pr.2 = "\nsize ".data ++ cs5 := stripExact_eq_some _ _ _ h4
  have hcs5 : cs5 = n.data ++ cs5.dropWhile Char.isDigit := by
    rw [hndata]
    exact (List.takeWhile_append_dropWhile (p := Char.isDigit) (l := cs5)).symm
  have hcs6 : cs5.dropWhile Char.isDigit = "\n".data ++ cs7 := stripExact_eq_some _ _ _ h5
  have hrest : cs7 = [] ∨ cs7 = ['\n'] := by
    simp only [dollarAccepts, Bool.or_eq_true, List.isEmpty_iff, beq_iff_eq] at hd
    exact hd
  constructor
  · refine ⟨?_, ?_, ?_, ?_, ?_, ?_⟩
    · rw [hvdata]
      intro hcon
      rw [← List.isEmpty_iff] at hcon
      exact hv hcon
    · intro c hc
      rw [hvdata] at hc
      have := List.mem_takeWhile_imp hc
      simpa using this
    · rw [hodata]; exact holen
    · intro c hc
      rw [hodata] at hc
      exact hoall c hc
    · rw [hndata]
      intro hcon
      rw [← List.isEmpty_iff] at hcon
      exact hn hcon
    · intro c hc
      rw [hndata] at hc
      exact List.mem_takeWhile_imp hc
  · have hfull : s.data = (lfsPointer v o n).data ++ cs7 := by
      have e1 : s.data = "version ".data ++ (v.data ++ ("\noid sha256:".data ++
          (o.data ++ ("\nsize ".data ++ (n.data ++ ("\n".data ++ cs7)))))) := by
        rw [hsdata]
        congr 1
        rw [hcs1]
        congr 1
        rw [hcs2]
        congr 1
        rw [hcs3, ← hodata]
        congr 1
        rw [hcs4]
        congr 1
        conv_lhs => rw [hcs5]
        rw [hcs6]
      rw [e1]
      simp [lfsPointer, String.data_append]
    rcases hrest with hr | hr
    · left
      apply String.ext
      rw [hfull, hr, List.append_nil]
    · right
      apply String.ext
      rw [hfull, hr, String.data_append]

end GitTheta

namespace GitTheta

theorem fromPointer_build (v o n : String) (hwf : WFPointerComponents v o n)
    (s : String) (rest : List Char) (hrest : rest = [] ∨ rest = ['\n'])
    (hs : s.data = (lfsPointer v o n).data ++ rest) :
    fromPointer s = some (v, o, n) := by
  obtain ⟨hv, hvws, holen, hoall, hn, hnall⟩ := hwf
  have hdata : s.data =
      "version ".data ++ (v.data ++ ('\n' :: ("oid sha256:".data ++
        (o.data ++ ('\n' :: ("size ".data ++ (n.data ++ ('\n' :: rest)))))))) := by
    rw [hs]; simp [lfsPointer, String.data_append]
  unfold fromPointer
  rw [hdata, stripExact_self_append, Option.some_bind]
  have htw1 := takeWhile_middle (fun c => !pyWhitespace c)
    v.data '\n' ("oid sha256:".data ++ (o.data ++ ('\n' :: ("size ".data ++ (n.data ++ ('\n' :: rest))))))
    (fun x hx => by simp [hvws x hx]) (by simp [pyWhitespace_newline])
  simp only []
  rw [htw1.1, htw1.2]
  rw [if_neg (by simpa [List.isEmpty_iff] using hv)]
  rw [show ('\n' :: ("oid sha256:".data ++ (o.data ++ ('\n' :: ("size ".data ++
      (n.data ++ ('\n' :: rest))))))) = "\noid sha256:".data ++ (o.data ++ ('\n' :: ("size ".data ++
      (n.data ++ ('\n' :: rest))))) from rfl, stripExact_self_append, Option.some_bind]
  rw [show (64 : Nat) = o.data.length from holen.symm,
    takeExactly_self_append isHexLower o.data _ hoall, Option.some_bind]
  rw [show ('\n' :: ("size ".data ++ (n.data ++ ('\n' :: rest)))) =
      "\nsize ".data ++ (n.data ++ ('\n' :: rest)) from rfl, stripExact_self_append,
    Option.some_bind]
  have htw2 := takeWhile_middle Char.isDigit n.data '\n' rest
    (fun x hx => hnall x hx) (by decide)
  simp only []
  rw [htw2.1, htw2.2]
  rw [if_neg (by simpa [List.isEmpty_iff] using hn)]
  rw [show ('\n' :: rest) = "\n".data ++ rest from rfl, stripExact_self_append,
    Option.some_bind]
  have hd : dollarAccepts rest = true := by
    rcases hrest with hr | hr <;> simp [dollarAccepts, hr]
  rw [if_pos hd]

end GitTheta

namespace GitTheta

/-- A 64-character lowercase-hex object id used for concrete inputs. -/
def oidZeros : String :=
  "0000000000000000000000000000000000000000000000000000000000000000"

/-- C6 counterexample: the claim says `from_pointer` raises for every string
not matching the three-line grammar with the trailing newline included, but
a pointer document followed by one extra newline is accepted: Python's `$`
(without `re.MULTILINE`) also matches just before a final newline. -/
theorem lfs_pointer_strictness_counterexample :
    fromPointer (lfsPointer "v1" oidZeros "0" ++ "\n") = some ("v1", oidZeros, "0") ∧
    ¬ matchesStrictPointer (lfsPointer "v1" oidZeros "0" ++ "\n") := by
  have hwf : WFPointerComponents "v1" oidZeros "0" := by
    refine ⟨by decide, by decide, by decide, by decide, by decide, by decide⟩
  have hparse : fromPointer (lfsPointer "v1" oidZeros "0" ++ "\n") =
      some ("v1", oidZeros, "0") := by
    refine fromPointer_build "v1" oidZeros "0" hwf _ ['\n'] (Or.inr rfl) ?_
    rw [String.data_append]
  refine ⟨hparse, ?_⟩
  rintro ⟨v, o, n, hwf2, heq⟩
  have hparse2 : fromPointer (lfsPointer "v1" oidZeros "0" ++ "\n") = some (v, o, n) := by
    refine fromPointer_build v o n hwf2 _ [] (Or.inl rfl) ?_
    rw [heq, List.append_nil]
  rw [hparse] at hparse2
  simp only [Option.some_inj, Prod.mk.injEq] at hparse2
  obtain ⟨hv, ho, hn⟩ := hparse2
  rw [← hv, ← ho, ← hn] at heq
  have hlen := congrArg (fun t : String => t.data.length) heq
  simp [String.data_append] at hlen

/-- C6 (amended): `LfsMetadata.from_pointer` returns the
`(version, oid, size)` components for exactly those strings of the form
`version <v>\noid sha256:<64-lowercase-hex>\nsize <digits>\n` followed by at
most one extra newline (Python `$` semantics); and for every string `p` that
parses, formatting the parse result with `lfs_pointer` and re-parsing yields
the same components. -/
theorem lfs_pointer_parse_amended :
    (∀ (s v o n : String), fromPointer s = some (v, o, n) ↔
      WFPointerComponents v o n ∧
        (s = lfsPointer v o n ∨ s = lfsPointer v o n ++ "\n")) ∧
    (∀ (p v o n : String), fromPointer p = some (v, o, n) →
      fromPointer (lfsPointer v o n) = some (v, o, n)) := by
  constructor
  · intro s v o n
    constructor
    · exact fromPointer_some_elim s v o n
    · rintro ⟨hwf, hs | hs⟩
      · refine fromPointer_build v o n hwf s [] (Or.inl rfl) ?_
        rw [hs, List.append_nil]
      · refine fromPointer_build v o n hwf s ['\n'] (Or.inr rfl) ?_
        rw [hs, String.data_append]
  · intro p v o n hp
    obtain ⟨hwf, _⟩ := fromPointer_some_elim p v o n hp
    exact fromPointer_build v o n hwf _ [] (Or.inl rfl) (List.append_nil _).symm

/-- Witness for C6: a concrete pointer document round-trips through
`from_pointer` and `lfs_pointer`. -/
theorem lfs_pointer_parse_amended_witness :
    fromPointer (lfsPointer "https://git-lfs.github.com/spec/v1" oidZeros "128") =
      some ("https://git-lfs.github.com/spec/v1", oidZeros, "128") :=
  lfs_pointer_parse_amended.2 (lfsPointer "https://git-lfs.github.com/spec/v1" oidZeros "128")
    "https://git-lfs.github.com/spec/v1" oidZeros "128"
    ((lfs_pointer_parse_amended.1 _ _ _ _).mpr ⟨⟨by decide, by decide, by decide, by decide,
      by decide, by decide⟩, Or.inl rfl⟩)

end GitTheta

namespace GitTheta

/-! ## Commit ledger (`git_theta/theta.py`, `git_theta/utils.py` validators)

`utils.is_valid_oid` / `utils.is_valid_commit_hash` apply
`re.match("^[0-9a-f]{64}$", ...)` / `re.match("^[0-9a-f]{40}$", ...)`; the
`$` again follows Python semantics (end of string or before one final
newline).  `ThetaCommits` stores one file per commit hash in
`.git/theta/commits`, modelled as an ordered association list. -/

/-- `re.match("^[c]{k}$", s)` for a character class `c`, under Python `$`
semantics. -/
def pyFullClassMatch (p : Char → Bool) (k : Nat) (s : String) : Bool :=
  match takeExactly p k s.data with
  | none => false
  | some pr => dollarAccepts pr.2

/-- `utils.is_valid_oid`. -/
def is_valid_oid (s : String) : Bool := pyFullClassMatch isHexLower 64 s

/-- `utils.is_valid_commit_hash`. -/
def is_valid_commit_hash (s : String) : Bool := pyFullClassMatch isHexLower 40 s

/-- The strict grammar `^[0-9a-f]{k}$` as the claim words it (spec-side):
exactly `k` lowercase-hex characters and nothing else. -/
def strictHexString (k : Nat) (s : String) : Bool :=
  s.data.length == k && s.data.all isHexLower

/-- `theta.CommitInfo`: the set of object ids introduced by one commit
(Python `set(oids)`). -/
structure CommitInfo where
  oids : Finset String
  deriving DecidableEq

/-- `CommitInfo.__init__`: rejects the construction when any oid fails
`is_valid_oid` (`ValueError`). -/
def mkCommitInfo (oids : List String) : Except String CommitInfo :=
  if oids.all is_valid_oid then .ok ⟨oids.toFinset⟩
  else .error "Invalid LFS object-ids"

/-- The per-commit files of `.git/theta/commits`, keyed by commit hash. -/
abbrev Ledger := List (String × CommitInfo)

/-- `ThetaCommits.write_commit_info`: reject an invalid commit hash
(`get_commit_path` raises), reject an existing entry, otherwise create the
new per-commit file. -/
def writeCommitInfo (ledger : Ledger) (commit_hash : String) (ci : CommitInfo) :
    Except String Ledger :=
  if is_valid_commit_hash commit_hash = false then
    .error "Cannot write commit info for invalid hash"
  else if (lookupN ledger commit_hash).isSome then
    .error "Cannot duplicate commit info"
  else .ok (ledger ++ [(commit_hash, ci)])

theorem pyFullClassMatch_iff (p : Char → Bool) (k : Nat) (s : String) :
    pyFullClassMatch p k s = true ↔
      ∃ core : List Char, core.length = k ∧ (∀ c ∈ core, p c = true) ∧
        (s.data = core ∨ s.data = core ++ ['\n']) := by
  constructor
  · intro h
    unfold pyFullClassMatch at h
    cases htk : takeExactly p k s.data with
    | none => rw [htk] at h; simp at h
    | some pr =>
        rw [htk] at h
        obtain ⟨hcs, hlen, hall⟩ := takeExactly_eq_some p k s.data pr.1 pr.2 htk
        refine ⟨pr.1, hlen, hall, ?_⟩
        simp only [dollarAccepts, Bool.or_eq_true, List.isEmpty_iff, beq_iff_eq] at h
        rcases h with h | h
        · left; rw [hcs, h, List.append_nil]
        · right; rw [hcs, h]
  · rintro ⟨core, hlen, hall, hs | hs⟩
    · unfold pyFullClassMatch
      rw [hs, show core = core ++ [] from (List.append_nil core).symm, ← hlen,
        takeExactly_self_append p core [] hall]
      rfl
    · unfold pyFullClassMatch
      rw [hs, ← hlen, takeExactly_self_append p core ['\n'] hall]
      rfl

theorem lookupN_append_singleton_ne {β : Type} (l : List (String × β)) (k k2 : String)
    (v : β) (h : k2 ≠ k) : lookupN (l ++ [(k, v)]) k2 = lookupN l k2 := by
  induction l with
  | nil =>
      have hne : ¬ k = k2 := fun hc => h hc.symm
      simp [lookupN, hne]
  | cons p rest ih =>
      by_cases hc : p.1 = k2
      · simp [lookupN, hc]
      · simp [lookupN, hc, ih]

/-- C7 counterexample: the claim says `write_commit_info` raises whenever
the commit hash does not match `^[0-9a-f]{40}$`; but a 40-hex hash followed
by one newline is accepted by Python's `re.match` (the `$` matches before a
final newline), so the write succeeds on it. -/
theorem theta_write_strictness_counterexample :
    strictHexString 40 "0000000000000000000000000000000000000000\n" = false ∧
    writeCommitInfo [] "0000000000000000000000000000000000000000\n" ⟨∅⟩ =
      .ok [("0000000000000000000000000000000000000000\n", ⟨∅⟩)] := by
  constructor
  · decide
  · rfl

/-- C7 (amended): `CommitInfo` construction rejects exactly the oid lists
containing an entry failing `is_valid_oid`; `write_commit_info` fails
exactly when the hash fails `is_valid_commit_hash` or an entry already
exists, and otherwise appends the new per-commit file leaving every other
entry unchanged; the accepted hash grammar is `^[0-9a-f]{40}$` under Python
`$` semantics, i.e. 40 lowercase-hex characters followed by at most one
newline (oids likewise with 64). -/
theorem theta_write_commit_info_amended :
    (∀ oids : List String,
      (∃ ci, mkCommitInfo oids = .ok ci ∧ ci.oids = oids.toFinset) ↔
        ∀ oid ∈ oids, is_valid_oid oid = true) ∧
    (∀ (ledger : Ledger) (h : String) (ci : CommitInfo),
      ((∃ l2, writeCommitInfo ledger h ci = .ok l2) ↔
        (is_valid_commit_hash h = true ∧ lookupN ledger h = none)) ∧
      (is_valid_commit_hash h = true → lookupN ledger h = none →
        writeCommitInfo ledger h ci = .ok (ledger ++ [(h, ci)]) ∧
        ∀ h2, h2 ≠ h → lookupN (ledger ++ [(h, ci)]) h2 = lookupN ledger h2)) ∧
    (∀ h : String, is_valid_commit_hash h = true ↔
      ∃ core : List Char, core.length = 40 ∧ (∀ c ∈ core, isHexLower c = true) ∧
        (h.data = core ∨ h.data = core ++ ['\n'])) := by
  refine ⟨?_, ?_, ?_⟩
  · intro oids
    constructor
    · rintro ⟨ci, hok, _⟩
      intro oid hm
      by_contra hbad
      have hall : oids.all is_valid_oid = false := by
        by_contra hcon
        rw [Bool.not_eq_false, List.all_eq_true] at hcon
        exact hbad (hcon oid hm)
      unfold mkCommitInfo at hok
      rw [hall] at hok
      simp at hok
    · intro hall
      refine ⟨⟨oids.toFinset⟩, ?_, rfl⟩
      unfold mkCommitInfo
      rw [List.all_eq_true.mpr hall]
      rfl
  · intro ledger h ci
    constructor
    · constructor
      · rintro ⟨l2, hok⟩
        unfold writeCommitInfo at hok
        by_cases hv : is_valid_commit_hash h = false
        · rw [if_pos hv] at hok; simp at hok
        · rw [if_neg hv] at hok
          by_cases hl : (lookupN ledger h).isSome
          · rw [if_pos hl] at hok; simp at hok
          · refine ⟨by simpa using hv, ?_⟩
            cases hlk : lookupN ledger h with
            | none => rfl
            | some x => rw [hlk] at hl; simp at hl
      · rintro ⟨hv, hl⟩
        refine ⟨ledger ++ [(h, ci)], ?_⟩
        unfold writeCommitInfo
        rw [if_neg (by simp [hv]), hl]
        rfl
    · intro hv hl
      constructor
      · unfold writeCommitInfo
        rw [if_neg (by simp [hv]), hl]
        rfl
      · intro h2 hne
        exact lookupN_append_singleton_ne ledger h h2 ci hne
  · intro h
    exact pyFullClassMatch_iff isHexLower 40 h

/-- Witness for C7: a concrete valid write appends the entry and an invalid
oid list is rejected at `CommitInfo` construction. -/
theorem theta_write_commit_info_amended_witness :
    writeCommitInfo [] "0123456789abcdef0123456789abcdef01234567" ⟨∅⟩ =
      .ok [("0123456789abcdef0123456789abcdef01234567", ⟨∅⟩)] :=
  ((theta_write_commit_info_amended.2.1 [] "0123456789abcdef0123456789abcdef01234567"
    ⟨∅⟩).2 (by decide) rfl).1

end GitTheta

namespace GitTheta

/-- Modelled from the spec: the VCS commit walk used by
`ThetaCommits.get_commit_info_range` (GitPython's `repo.iter_commits`, an
external collaborator).  `commitsFrom e` is every commit reachable from
`e`; `commitsRange s e` is the commit range `(s, e]`, i.e. the commits
reachable from `e` but not from `s`. -/
structure GitRepo where
  commitsFrom : String → List String
  commitsRange : String → String → List String

/-- `re.match("^0{40}$", start_hash)`: how the source recognises the
all-zero hash git uses for a non-existent start ref. -/
def pyMatchZeros (s : String) : Bool := pyFullClassMatch (fun c => c = '0') 40 s

/-- `ThetaCommits.get_commit_info`: validate the hash, then read the
per-commit file, raising when it does not exist. -/
def getCommitInfoM (ledger : Ledger) (h : String) : Except String CommitInfo :=
  if is_valid_commit_hash h = false then .error "invalid hash"
  else match lookupN ledger h with
    | none => .error "commit not found"
    | some ci => .ok ci

/-- The commit list `get_commit_info_range` walks: from the root when the
start hash is all zeros, the range `(start, end]` otherwise. -/
def rangeCommits (repo : GitRepo) (start_hash end_hash : String) : List String :=
  if pyMatchZeros start_hash then repo.commitsFrom end_hash
  else repo.commitsRange start_hash end_hash

/-- `ThetaCommits.get_commit_info_range`. -/
def getCommitInfoRange (repo : GitRepo) (ledger : Ledger) (start_hash end_hash : String) :
    Except String (List CommitInfo) :=
  (rangeCommits repo start_hash end_hash).mapM (getCommitInfoM ledger)

/-- `ThetaCommits.combine_oid_sets`: `functools.reduce(union, sets, ∅)`. -/
def combineOidSets (sets : List (Finset String)) : Finset String :=
  sets.foldl (fun a b => a ∪ b) ∅

/-- `ThetaCommits.get_commit_oids_range`. -/
def getCommitOidsRange (repo : GitRepo) (ledger : Ledger) (start_hash end_hash : String) :
    Except String (Finset String) :=
  (getCommitInfoRange repo ledger start_hash end_hash).map
    (fun infos => combineOidSets (infos.map CommitInfo.oids))

theorem mem_foldl_union (sets : List (Finset String)) (init : Finset String) (x : String) :
    x ∈ sets.foldl (fun a b => a ∪ b) init ↔ x ∈ init ∨ ∃ s ∈ sets, x ∈ s := by
  induction sets generalizing init with
  | nil => simp
  | cons s sets ih =>
      rw [List.foldl_cons, ih]
      simp only [Finset.mem_union, List.mem_cons]
      constructor
      · rintro ((hx | hx) | ⟨t, ht, hx⟩)
        · exact Or.inl hx
        · exact Or.inr ⟨s, Or.inl rfl, hx⟩
        · exact Or.inr ⟨t, Or.inr ht, hx⟩
      · rintro (hx | ⟨t, ht | ht, hx⟩)
        · exact Or.inl (Or.inl hx)
        · exact Or.inl (Or.inr (ht ▸ hx))
        · exact Or.inr ⟨t, ht, hx⟩

theorem mem_combineOidSets (sets : List (Finset String)) (x : String) :
    x ∈ combineOidSets sets ↔ ∃ s ∈ sets, x ∈ s := by
  rw [combineOidSets, mem_foldl_union]
  simp

theorem mapM_ok_of_forall {α β ε : Type} (f : α → Except ε β) (g : α → β) :
    ∀ l : List α, (∀ a ∈ l, f a = Except.ok (g a)) → l.mapM f = Except.ok (l.map g)
  | [], _ => rfl
  | a :: l, h => by
      rw [List.mapM_cons, h a (by simp), mapM_ok_of_forall f g l (fun b hb => h b (by simp [hb]))]
      rfl

/-- C8: for every pre-push range lookup on which every commit in the range
has a ledger entry, the returned oid set is exactly the union of the ledger
entries over `rangeCommits`, and when the start hash is the all-zero
40-character hash the walked commits are those reachable from the end hash
(the walk starts from the root). -/
theorem theta_range_oids_union :
    (∀ (repo : GitRepo) (ledger : Ledger) (s e : String) (g : String → CommitInfo),
      (∀ c ∈ rangeCommits repo s e,
        is_valid_commit_hash c = true ∧ lookupN ledger c = some (g c)) →
      ∃ U, getCommitOidsRange repo ledger s e = .ok U ∧
        ∀ x, x ∈ U ↔ ∃ c ∈ rangeCommits repo s e, x ∈ (g c).oids) ∧
    (∀ (repo : GitRepo) (e : String),
      rangeCommits repo "0000000000000000000000000000000000000000" e = repo.commitsFrom e) := by
  constructor
  · intro repo ledger s e g hall
    have hmapM : (rangeCommits repo s e).mapM (getCommitInfoM ledger) =
        Except.ok ((rangeCommits repo s e).map g) := by
      refine mapM_ok_of_forall _ g _ ?_
      intro c hc
      obtain ⟨hv, hlk⟩ := hall c hc
      unfold getCommitInfoM
      rw [if_neg (by simp [hv]), hlk]
    refine ⟨combineOidSets (((rangeCommits repo s e).map g).map CommitInfo.oids), ?_, ?_⟩
    · unfold getCommitOidsRange getCommitInfoRange
      rw [hmapM]
      rfl
    · intro x
      rw [mem_combineOidSets]
      constructor
      · rintro ⟨t, ht, hx⟩
        simp only [List.map_map, List.mem_map] at ht
        obtain ⟨c, hc, rfl⟩ := ht
        exact ⟨c, hc, hx⟩
      · rintro ⟨c, hc, hx⟩
        exact ⟨(g c).oids, by simp only [List.map_map, List.mem_map]; exact ⟨c, hc, rfl⟩, hx⟩
  · intro repo e
    unfold rangeCommits
    rw [if_pos (by decide)]

/-- Witness for C8: the union over a concrete two-commit range. -/
theorem theta_range_oids_union_witness :
    ∃ U, getCommitOidsRange
        ⟨fun _ => [], fun _ _ => ["0123456789abcdef0123456789abcdef01234567"]⟩
        [("0123456789abcdef0123456789abcdef01234567", ⟨{oidZeros}⟩)]
        "1123456789abcdef0123456789abcdef01234567"
        "0123456789abcdef0123456789abcdef01234567" = .ok U ∧
      ∀ x, x ∈ U ↔ ∃ c ∈ rangeCommits
        ⟨fun _ => [], fun _ _ => ["0123456789abcdef0123456789abcdef01234567"]⟩
        "1123456789abcdef0123456789abcdef01234567"
        "0123456789abcdef0123456789abcdef01234567",
        x ∈ (({oidZeros} : Finset String) : Finset String) :=
  theta_range_oids_union.1
    ⟨fun _ => [], fun _ _ => ["0123456789abcdef0123456789abcdef01234567"]⟩
    [("0123456789abcdef0123456789abcdef01234567", ⟨{oidZeros}⟩)]
    "1123456789abcdef0123456789abcdef01234567"
    "0123456789abcdef0123456789abcdef01234567"
    (fun _ => ⟨{oidZeros}⟩)
    (by intro c hc
        rw [show rangeCommits ⟨fun _ => [], fun _ _ => ["0123456789abcdef0123456789abcdef01234567"]⟩
          "1123456789abcdef0123456789abcdef01234567"
          "0123456789abcdef0123456789abcdef01234567" =
          ["0123456789abcdef0123456789abcdef01234567"] from by
            unfold rangeCommits
            rw [if_neg (by decide)]] at hc
        simp only [List.mem_singleton] at hc
        subst hc
        exact ⟨by decide, rfl⟩)

end GitTheta

namespace GitTheta

/-! ## Update plug-ins over exact arithmetic
(`git_theta/updates/ia3.py`, `sparse.py`, `low_rank.py`, `dense.py`)

Tensors are modelled over `ℚ` (the claims are about the algebra of the
update calculations, not float rounding): a shape and a value function on
index vectors.  The numpy operations used by `IA3Update.calculate_update`
(`np.divide(..., out=np.zeros(shape), where=mask)`, `np.sum(...,
axis=broadcast_dims, keepdims=True)`, broadcasting of size-1 axes) are
embedded directly. -/

/-- A tensor: a shape and a value for every index vector. -/
structure QTensor where
  shape : List Nat
  val : List Nat → ℚ

/-- A boolean tensor (a numpy mask). -/
structure BTensor where
  shape : List Nat
  val : List Nat → Bool

/-- All valid index vectors of a shape, in row-major order. -/
def allIdx : List Nat → List (List Nat)
  | [] => [[]]
  | d :: rest => (List.range d).flatMap (fun i => (allIdx rest).map (fun t => i :: t))

/-- An index is valid for a shape. -/
def ValidIdx (shape idx : List Nat) : Prop :=
  idx.length = shape.length ∧ ∀ p < shape.length, idx.getD p 0 < shape.getD p 1

instance (shape idx : List Nat) : Decidable (ValidIdx shape idx) := by
  unfold ValidIdx
  infer_instance

/-- numpy broadcasting of an index against a shape: a size-1 axis is read
at position 0. -/
def broadcastIdx (shape idx : List Nat) : List Nat :=
  List.zipWith (fun d i => if d = 1 then 0 else i) shape idx

/-- Read a tensor at an index under broadcasting. -/
def bval (t : QTensor) (idx : List Nat) : ℚ := t.val (broadcastIdx t.shape idx)

/-- Read a mask at an index under broadcasting. -/
def bvalB (m : BTensor) (idx : List Nat) : Bool := m.val (broadcastIdx m.shape idx)

/-- The shape produced by `np.sum(..., axis=dims, keepdims=True)`: the
summed axes become 1. -/
def reduceShape (shape : List Nat) (dims : List Nat) : List Nat :=
  (List.range shape.length).map (fun p => if p ∈ dims then 1 else shape.getD p 1)

/-- Two indices agree on every axis outside `dims`. -/
def agreeOutside (dims : List Nat) (len : Nat) (j idx : List Nat) : Bool :=
  (List.range len).all (fun p => decide (p ∈ dims) || decide (j.getD p 0 = idx.getD p 0))

/-- `np.sum(t, axis=dims, keepdims=True)`. -/
def npSumKeepdims (t : QTensor) (dims : List Nat) : QTensor :=
  ⟨reduceShape t.shape dims, fun idx =>
    (((allIdx t.shape).filter (fun j => agreeOutside dims t.shape.length j idx)).map t.val).sum⟩

/-- `np.sum(mask, axis=dims, keepdims=True)` on a boolean mask (True counts
as 1). -/
def npSumKeepdimsB (m : BTensor) (dims : List Nat) : QTensor :=
  ⟨reduceShape m.shape dims, fun idx =>
    ((((allIdx m.shape).filter (fun j => agreeOutside dims m.shape.length j idx)).countP
      (fun j => m.val j) : Nat) : ℚ)⟩

/-- `np.divide(a, b, out=np.zeros(outShape), where=w)`: the quotient where
the mask holds, the untouched zero of `out` elsewhere, with all operands
broadcast against `outShape`. -/
def npDivideWhere (a b : QTensor) (outShape : List Nat) (w : BTensor) : QTensor :=
  ⟨outShape, fun idx => if bvalB w idx then bval a idx / bval b idx else 0⟩

/-- `IA3Update.calculate_update(parameter, previous_parameter,
broadcast_dims)`: `mask1 = previous != 0`;
`multiplier = np.divide(parameter, previous, out=zeros(parameter.shape),
where=mask1)`; `denominator = np.sum(mask1, axis=broadcast_dims,
keepdims=True)`; `mask2 = denominator != 0`; the stored `ia3` vector is
`np.divide(np.sum(multiplier, axis=broadcast_dims, keepdims=True),
denominator, out=zeros(parameter.shape), where=mask2)`. -/
def ia3CalculateUpdate (parameter previous : QTensor) (broadcast_dims : List Nat) : QTensor :=
  let mask1 : BTensor := ⟨previous.shape, fun i => decide (previous.val i ≠ 0)⟩
  let multiplier := npDivideWhere parameter previous parameter.shape mask1
  let denominator := npSumKeepdimsB mask1 broadcast_dims
  let mask2 : BTensor := ⟨denominator.shape, fun i => decide (denominator.val i ≠ 0)⟩
  npDivideWhere (npSumKeepdims multiplier broadcast_dims) denominator parameter.shape mask2

/-- `IA3Update.apply_update(update, previous) = previous * update["ia3"]`
(element-wise with broadcasting; in the pipeline both operands have the
parameter's shape). -/
def ia3ApplyUpdate (update previous : QTensor) : QTensor :=
  ⟨previous.shape, fun i => previous.val i * bval update i⟩

/-- `SparseUpdate.calculate_sparse_update(new_value, previous_value) =
new_value - previous_value` (the snapshot's sparse plug-in stores the raw
difference; no thresholding). -/
def sparseCalculateUpdate (new_value previous_value : QTensor) : QTensor :=
  ⟨new_value.shape, fun i => new_value.val i - previous_value.val i⟩

/-- `SparseUpdate.apply`: `previous + difference`. -/
def sparseApplyUpdate (previous difference : QTensor) : QTensor :=
  ⟨previous.shape, fun i => previous.val i + difference.val i⟩

/-- `LowRankUpdate.calculate_update` on a parameter with fewer than two
dimensions: `update = parameter - previous_parameter` is returned directly
(the SVD branch applies only to `ndim ≥ 2`). -/
def lowRankCalculateUpdate1d (parameter previous_parameter : QTensor) : QTensor :=
  ⟨parameter.shape, fun i => parameter.val i - previous_parameter.val i⟩

/-- `LowRankUpdate.apply_update` when the stored update is not a
factorization dict: `update + previous`. -/
def lowRankApplyUpdate1d (update previous : QTensor) : QTensor :=
  ⟨previous.shape, fun i => update.val i + previous.val i⟩

/-- `DenseUpdate`: `write` stores the full tensor and `apply` returns the
value read back unchanged. -/
def denseApplyUpdate (stored : QTensor) : QTensor := stored

end GitTheta

namespace GitTheta

theorem getD_zipWith (f : Nat → Nat → Nat) :
    ∀ (as bs : List Nat) (p : Nat), p < as.length → p < bs.length →
    (List.zipWith f as bs).getD p 0 = f (as.getD p 0) (bs.getD p 0)
  | [], _, p, ha, _ => by simp at ha
  | _ :: _, [], p, _, hb => by simp at hb
  | a :: as, b :: bs, 0, _, _ => rfl
  | a :: as, b :: bs, p + 1, ha, hb => by
      simp only [List.zipWith_cons_cons, List.getD_cons_succ]
      exact getD_zipWith f as bs p (by simpa using ha) (by simpa using hb)

theorem broadcastIdx_valid (shape idx : List Nat) (hv : ValidIdx shape idx) :
    broadcastIdx shape idx = idx := by
  obtain ⟨hlen, hbound⟩ := hv
  unfold broadcastIdx
  induction shape generalizing idx with
  | nil =>
      have : idx = [] := List.length_eq_zero.mp (by simpa using hlen)
      simp [this]
  | cons d shape ih =>
      cases idx with
      | nil => simp at hlen
      | cons i idx =>
          have hi : i < d := by simpa using hbound 0 (by simp)
          have htail : List.zipWith (fun d i => if d = 1 then 0 else i) shape idx = idx := by
            refine ih idx (by simpa using hlen) ?_
            intro p hp
            simpa using hbound (p + 1) (by simpa using Nat.succ_lt_succ hp)
          by_cases hd : d = 1
          · subst hd
            have : i = 0 := Nat.lt_one_iff.mp hi
            simp [this, htail]
          · simp [hd, htail]

theorem mem_allIdx_iff : ∀ (shape j : List Nat), j ∈ allIdx shape ↔ ValidIdx shape j
  | [], j => by
      simp only [allIdx, List.mem_singleton, ValidIdx]
      constructor
      · rintro rfl; simp
      · rintro ⟨hlen, _⟩
        exact List.length_eq_zero.mp (by simpa using hlen)
  | d :: shape, j => by
      simp only [allIdx, List.mem_flatMap, List.mem_map, List.mem_range]
      constructor
      · rintro ⟨i, hi, t, ht, rfl⟩
        obtain ⟨hlen, hbound⟩ := (mem_allIdx_iff shape t).mp ht
        refine ⟨by simpa using hlen, ?_⟩
        intro p hp
        cases p with
        | zero => simpa using hi
        | succ p => simpa using hbound p (by simpa using hp)
      · rintro ⟨hlen, hbound⟩
        cases j with
        | nil => simp at hlen
        | cons i t =>
            refine ⟨i, by simpa using hbound 0 (by simp), t, ?_, rfl⟩
            refine (mem_allIdx_iff shape t).mpr ⟨by simpa using hlen, ?_⟩
            intro p hp
            simpa using hbound (p + 1) (by simpa using Nat.succ_lt_succ hp)

theorem reduceShape_length (shape dims : List Nat) :
    (reduceShape shape dims).length = shape.length := by
  simp [reduceShape]

theorem reduceShape_getD (shape dims : List Nat) (p : Nat) (hp : p < shape.length) :
    (reduceShape shape dims).getD p 0 = if p ∈ dims then 1 else shape.getD p 1 := by
  unfold reduceShape
  rw [List.getD_eq_getElem?_getD, List.getElem?_map, List.getElem?_range hp]
  rfl

end GitTheta

namespace GitTheta

theorem all_congr_mem {α : Type} (f g : α → Bool) :
    ∀ l : List α, (∀ a ∈ l, f a = g a) → l.all f = l.all g
  | [], _ => rfl
  | a :: l, h => by
      simp only [List.all_cons, h a (by simp),
        all_congr_mem f g l (fun b hb => h b (by simp [hb]))]

theorem agree_broadcast_reduce (shape dims : List Nat) (idx j : List Nat)
    (hvi : ValidIdx shape idx) (hvj : ValidIdx shape j) :
    agreeOutside dims shape.length j (broadcastIdx (reduceShape shape dims) idx) =
      agreeOutside dims shape.length j idx := by
  unfold agreeOutside
  refine all_congr_mem _ _ _ ?_
  intro p hp
  rw [List.mem_range] at hp
  by_cases hd : p ∈ dims
  · simp [hd]
  · have hx : (broadcastIdx (reduceShape shape dims) idx).getD p 0 =
        if (reduceShape shape dims).getD p 0 = 1 then 0 else idx.getD p 0 := by
      unfold broadcastIdx
      exact getD_zipWith _ _ _ p (by rw [reduceShape_length]; exact hp)
        (by rw [hvi.1]; exact hp)
    rw [hx, reduceShape_getD shape dims p hp, if_neg hd]
    by_cases h1 : shape.getD p 1 = 1
    · have hj0 : j.getD p 0 = 0 := by
        have := hvj.2 p hp
        omega
      have hi0 : idx.getD p 0 = 0 := by
        have := hvi.2 p hp
        omega
      simp only [List.getD_eq_getElem?_getD] at h1 hj0 hi0
      simp [h1, hj0, hi0]
    · simp only [List.getD_eq_getElem?_getD] at h1
      simp [h1]

theorem broadcastIdx_reduced_agree (shape dims : List Nat) (rsh : List Nat)
    (hrsh : rsh = reduceShape shape dims) (idx j : List Nat)
    (hvi : ValidIdx shape idx) (hvj : ValidIdx shape j)
    (hagree : agreeOutside dims shape.length j idx = true) :
    broadcastIdx rsh j = broadcastIdx rsh idx := by
  subst hrsh
  unfold broadcastIdx
  refine List.ext_getElem (by simp [reduceShape_length, hvi.1, hvj.1]) ?_
  intro p h1 h2
  have hp : p < shape.length := by
    simp only [List.length_zipWith, reduceShape_length, hvj.1] at h1
    omega
  have hzj : (List.zipWith (fun d i => if d = 1 then 0 else i)
      (reduceShape shape dims) j).getD p 0 =
      if (reduceShape shape dims).getD p 0 = 1 then 0 else j.getD p 0 :=
    getD_zipWith _ _ _ p (by rw [reduceShape_length]; exact hp) (by rw [hvj.1]; exact hp)
  have hzi : (List.zipWith (fun d i => if d = 1 then 0 else i)
      (reduceShape shape dims) idx).getD p 0 =
      if (reduceShape shape dims).getD p 0 = 1 then 0 else idx.getD p 0 :=
    getD_zipWith _ _ _ p (by rw [reduceShape_length]; exact hp) (by rw [hvi.1]; exact hp)
  rw [← List.getD_eq_getElem _ 0 h1, ← List.getD_eq_getElem _ 0 h2, hzj, hzi]
  by_cases hd : p ∈ dims
  · rw [reduceShape_getD shape dims p hp, if_pos hd]
    simp
  · rw [reduceShape_getD shape dims p hp, if_neg hd]
    by_cases h1s : shape.getD p 1 = 1
    · simp only [List.getD_eq_getElem?_getD] at h1s
      simp [h1s]
    · have hjp : j.getD p 0 = idx.getD p 0 := by
        unfold agreeOutside at hagree
        rw [List.all_eq_true] at hagree
        have := hagree p (List.mem_range.mpr hp)
        simp only [Bool.or_eq_true, decide_eq_true_eq] at this
        rcases this with hc | hc
        · exact absurd hc hd
        · exact hc
      simp only [List.getD_eq_getElem?_getD] at h1s hjp
      simp [h1s, hjp]

theorem sum_if_count {α : Type} (q : α → Bool) (c : ℚ) :
    ∀ l : List α, ((l.map (fun j => if q j then c else 0)).sum) = c * l.countP q
  | [] => by simp
  | a :: l => by
      by_cases hq : q a <;>
        simp only [List.map_cons, List.sum_cons, List.countP_cons, hq, if_true, if_false,
          sum_if_count q c l] <;> push_cast <;> ring

end GitTheta

namespace GitTheta

/-- Element-wise characterization of `IA3Update.calculate_update`: at a
valid index the stored vector is the average of the element-wise ratios
`parameter / previous` over the group of indices agreeing outside the
broadcast axes, where `previous == 0` positions contribute a zero ratio,
the denominator counts only non-zero `previous` entries, and the output is
zero where that count is zero. -/
theorem ia3_calc_val (parameter previous : QTensor) (dims : List Nat) (idx : List Nat)
    (hsh : previous.shape = parameter.shape) (hv : ValidIdx parameter.shape idx) :
    (ia3CalculateUpdate parameter previous dims).val idx =
      (let grp := (allIdx parameter.shape).filter
          (fun j => agreeOutside dims parameter.shape.length j idx);
       let cnt := grp.countP (fun j => decide (previous.val j ≠ 0));
       if cnt = 0 then 0
       else (grp.map (fun j => if previous.val j = 0 then 0
          else parameter.val j / previous.val j)).sum / (cnt : ℚ)) := by
  simp only [ia3CalculateUpdate, npDivideWhere, npSumKeepdims, npSumKeepdimsB, bval, bvalB]
  rw [hsh]
  have hfiltereq : ∀ target : List Nat, target = broadcastIdx (reduceShape parameter.shape dims) idx →
      (allIdx parameter.shape).filter
        (fun j => agreeOutside dims parameter.shape.length j target) =
      (allIdx parameter.shape).filter
        (fun j => agreeOutside dims parameter.shape.length j idx) := by
    intro target ht
    refine List.filter_congr ?_
    intro j hj
    rw [ht]
    exact agree_broadcast_reduce parameter.shape dims idx j hv ((mem_allIdx_iff _ j).mp hj)
  simp only [hfiltereq _ rfl]
  have hmapeq : ((allIdx parameter.shape).filter
        (fun j => agreeOutside dims parameter.shape.length j idx)).map
        (fun j => if (decide (previous.val (broadcastIdx parameter.shape j) ≠ 0)) = true
          then parameter.val (broadcastIdx parameter.shape j) /
            previous.val (broadcastIdx parameter.shape j) else 0) =
      ((allIdx parameter.shape).filter
        (fun j => agreeOutside dims parameter.shape.length j idx)).map
        (fun j => if previous.val j = 0 then 0 else parameter.val j / previous.val j) := by
    refine List.map_congr_left ?_
    intro j hj
    have hvj : ValidIdx parameter.shape j :=
      (mem_allIdx_iff _ j).mp (List.mem_filter.mp hj).1
    rw [broadcastIdx_valid parameter.shape j hvj]
    by_cases hz : previous.val j = 0
    · simp [hz]
    · simp [hz]
  simp only [hmapeq]
  set cnt := ((allIdx parameter.shape).filter
      (fun j => agreeOutside dims parameter.shape.length j idx)).countP
      (fun j => decide (previous.val j ≠ 0)) with hcnt
  by_cases hc : cnt = 0
  · rw [if_neg (by simp [hc]), if_pos hc]
  · rw [if_pos (by simpa using Nat.cast_ne_zero.mpr hc), if_neg hc]

end GitTheta

namespace GitTheta

/-- C5: `IA3Update.calculate_update(new, prev, broadcast_dims)` averages the
element-wise ratios `new/prev` over the broadcast axes: positions with
`prev == 0` contribute a ratio of zero, the average at each output position
divides only by the count of non-zero `prev` entries along the broadcast
axes and only where that count is non-zero, and the output is zero wherever
that count is zero. -/
theorem ia3_calculate_update_spec (parameter previous : QTensor) (dims idx : List Nat)
    (hsh : previous.shape = parameter.shape) (hv : ValidIdx parameter.shape idx) :
    (((allIdx parameter.shape).filter
        (fun j => agreeOutside dims parameter.shape.length j idx)).countP
        (fun j => decide (previous.val j ≠ 0)) = 0 →
      (ia3CalculateUpdate parameter previous dims).val idx = 0) ∧
    (((allIdx parameter.shape).filter
        (fun j => agreeOutside dims parameter.shape.length j idx)).countP
        (fun j => decide (previous.val j ≠ 0)) ≠ 0 →
      (ia3CalculateUpdate parameter previous dims).val idx =
        (((allIdx parameter.shape).filter
            (fun j => agreeOutside dims parameter.shape.length j idx)).map
            (fun j => if previous.val j = 0 then 0
              else parameter.val j / previous.val j)).sum /
          ((((allIdx parameter.shape).filter
            (fun j => agreeOutside dims parameter.shape.length j idx)).countP
            (fun j => decide (previous.val j ≠ 0)) : Nat) : ℚ)) := by
  have h := ia3_calc_val parameter previous dims idx hsh hv
  simp only at h
  constructor
  · intro h0
    rw [h, if_pos h0]
  · intro h0
    rw [h, if_neg h0]

/-- Witness for C5: the averaged ratio on a concrete 2-element parameter. -/
theorem ia3_calculate_update_spec_witness :
    (ia3CalculateUpdate ⟨[2], fun i => if i = [0] then 2 else 6⟩
        ⟨[2], fun i => if i = [0] then 1 else 2⟩ [0]).val [0] =
      (((allIdx [2]).filter
          (fun j => agreeOutside [0] ([2] : List Nat).length j [0])).map
          (fun j => if (⟨[2], fun i => if i = [0] then 1 else 2⟩ : QTensor).val j = 0 then 0
            else (⟨[2], fun i => if i = [0] then 2 else 6⟩ : QTensor).val j /
              (⟨[2], fun i => if i = [0] then 1 else 2⟩ : QTensor).val j)).sum /
        ((((allIdx [2]).filter
          (fun j => agreeOutside [0] ([2] : List Nat).length j [0])).countP
          (fun j => decide ((⟨[2], fun i => if i = [0] then 1 else 2⟩ : QTensor).val j ≠ 0)) :
            Nat) : ℚ) :=
  (ia3_calculate_update_spec ⟨[2], fun i => if i = [0] then 2 else 6⟩
    ⟨[2], fun i => if i = [0] then 1 else 2⟩ [0] [0] rfl (by decide)).2 (by decide)

/-- Absolute value on `ℚ` by cases (kept executable for concrete
evaluation). -/
def qabs (x : ℚ) : ℚ := if x < 0 then -x else x

/-- The claim-side approximate equality `‖x − y‖ ≤ rtol·‖y‖` element-wise
(`np.allclose` with `atol = 0` and the stated `rtol`). -/
def allcloseRtol (rtol : ℚ) (x y : QTensor) : Prop :=
  ∀ idx ∈ allIdx y.shape, qabs (x.val idx - y.val idx) ≤ rtol * qabs (y.val idx)

instance (rtol : ℚ) (x y : QTensor) : Decidable (allcloseRtol rtol x y) := by
  unfold allcloseRtol
  infer_instance

/-- `numpy`'s 2-D matrix product `A @ B`: the summation runs over `A`'s
inner dimension. -/
def npMatMul2d (A B : QTensor) : QTensor :=
  ⟨[A.shape.getD 0 0, B.shape.getD 1 0], fun idx =>
    ((List.range (A.shape.getD 1 0)).map
      (fun t => A.val [idx.getD 0 0, t] * B.val [t, idx.getD 1 0])).sum⟩

/-- `LowRankUpdate.apply_update` on the dict (2-D) branch:
`update["R"] @ update["C"] + previous`. -/
def lowRankApplyUpdate2d (R C previous : QTensor) : QTensor :=
  ⟨previous.shape, fun idx => (npMatMul2d R C).val idx + previous.val idx⟩

theorem qabs_le (x c : ℚ) : qabs x ≤ c ↔ -c ≤ x ∧ x ≤ c := by
  unfold qabs
  split_ifs with h
  · constructor
    · intro hc; constructor <;> linarith
    · intro hc; linarith [hc.1]
  · constructor
    · intro hc; constructor <;> linarith [not_lt.mp h]
    · intro hc; exact hc.2

/-- C2 counterexample, two parts.  (i) ia3: with `a = [1, 2]`, `b = [1, 1]`
and broadcast axis 0 the stored average is `3/2`, so the reconstruction is
`[3/2, 3/2]`, off by `1/2` at index 1 — far outside `rtol = 1e-6`.
(ii) 2-D low-rank: with `a = diag(1, 1e-12)` and `b = 0` the update is
`a - b = diag(1, 1e-12)`, whose singular values are exactly `1` and
`1e-12`; the plug-in's default configuration (`K = None`,
`threshold = 1e-11`) keeps `k = #(σ > 1e-11) = 1` component, so
`calculate_update` returns a 2×1 factor `R = u[:, :1]` and a 1×2 factor
`C = diag(s[:1]) @ vh[:1, :]`.  For EVERY possible pair of such factors
(entries `r0, r1` and `c0, c1` — covering whatever the numerical SVD
produces), `apply_update` reconstructs a rank-≤1 matrix, and matching `a`
within `rtol = 1e-6` at the `1` and the two `0` entries forces the product
to vanish at position (1, 1), where `a` is `1e-12`: the rank-one
constraint `(R@C)₀₀·(R@C)₁₁ = (R@C)₀₁·(R@C)₁₀` makes the roundtrip
impossible, so the original universal claim also fails for the 2-D
low-rank SVD branch. -/
theorem update_roundtrip_counterexample :
    (¬ allcloseRtol (1/1000000)
      (ia3ApplyUpdate
        (ia3CalculateUpdate ⟨[2], fun i => if i = [0] then 1 else 2⟩ ⟨[2], fun _ => 1⟩ [0])
        ⟨[2], fun _ => 1⟩)
      ⟨[2], fun i => if i = [0] then 1 else 2⟩) ∧
    (∀ r0 r1 c0 c1 : ℚ,
      ¬ allcloseRtol (1/1000000)
        (lowRankApplyUpdate2d
          ⟨[2, 1], fun idx => if idx = [0, 0] then r0 else r1⟩
          ⟨[1, 2], fun idx => if idx = [0, 1] then c1 else c0⟩
          ⟨[2, 2], fun _ => 0⟩)
        ⟨[2, 2], fun idx =>
          if idx = [0, 0] then 1 else if idx = [1, 1] then 1/1000000000000 else 0⟩) := by
  constructor
  · intro hall
    have hmem : [1] ∈ allIdx ([2] : List Nat) := by decide
    have h := hall [1] hmem
    have hval : (ia3ApplyUpdate
        (ia3CalculateUpdate ⟨[2], fun i => if i = [0] then 1 else 2⟩ ⟨[2], fun _ => 1⟩ [0])
        ⟨[2], fun _ => 1⟩).val [1] = 3/2 := by
      norm_num [ia3ApplyUpdate, ia3CalculateUpdate, npDivideWhere, npSumKeepdims, npSumKeepdimsB,
        bval, bvalB, broadcastIdx, reduceShape, agreeOutside, allIdx, List.range_succ]
    rw [hval] at h
    norm_num [qabs] at h
  · intro r0 r1 c0 c1 hall
    have hq1 : qabs (1 : ℚ) = 1 := by norm_num [qabs]
    have hq0 : qabs (0 : ℚ) = 0 := by norm_num [qabs]
    have hqe : qabs ((1 : ℚ)/1000000000000) = 1/1000000000000 := by norm_num [qabs]
    have h00 := hall [0, 0] (by decide)
    have h01 := hall [0, 1] (by decide)
    have h11 := hall [1, 1] (by decide)
    have e00 : (lowRankApplyUpdate2d
        ⟨[2, 1], fun idx => if idx = [0, 0] then r0 else r1⟩
        ⟨[1, 2], fun idx => if idx = [0, 1] then c1 else c0⟩
        ⟨[2, 2], fun _ => 0⟩).val [0, 0] = r0 * c0 := by
      norm_num [lowRankApplyUpdate2d, npMatMul2d, List.range_succ]
    have e01 : (lowRankApplyUpdate2d
        ⟨[2, 1], fun idx => if idx = [0, 0] then r0 else r1⟩
        ⟨[1, 2], fun idx => if idx = [0, 1] then c1 else c0⟩
        ⟨[2, 2], fun _ => 0⟩).val [0, 1] = r0 * c1 := by
      norm_num [lowRankApplyUpdate2d, npMatMul2d, List.range_succ]
    have e11 : (lowRankApplyUpdate2d
        ⟨[2, 1], fun idx => if idx = [0, 0] then r0 else r1⟩
        ⟨[1, 2], fun idx => if idx = [0, 1] then c1 else c0⟩
        ⟨[2, 2], fun _ => 0⟩).val [1, 1] = r1 * c1 := by
      norm_num [lowRankApplyUpdate2d, npMatMul2d, List.range_succ]
    have a00 : (⟨[2, 2], fun idx =>
        if idx = [0, 0] then 1 else if idx = [1, 1] then 1/1000000000000 else 0⟩ :
        QTensor).val [0, 0] = 1 := by norm_num
    have a01 : (⟨[2, 2], fun idx =>
        if idx = [0, 0] then 1 else if idx = [1, 1] then 1/1000000000000 else 0⟩ :
        QTensor).val [0, 1] = 0 := by norm_num
    have a11 : (⟨[2, 2], fun idx =>
        if idx = [0, 0] then 1 else if idx = [1, 1] then 1/1000000000000 else 0⟩ :
        QTensor).val [1, 1] = 1/1000000000000 := by norm_num
    rw [e00, a00, hq1] at h00
    rw [e01, a01, hq0] at h01
    rw [e11, a11, hqe] at h11
    obtain ⟨h00L, h00R⟩ := (qabs_le _ _).mp h00
    obtain ⟨h01L, h01R⟩ := (qabs_le _ _).mp h01
    obtain ⟨h11L, h11R⟩ := (qabs_le _ _).mp h11
    have hc1 : r0 * c1 = 0 := le_antisymm (by linarith) (by linarith)
    have hr0 : r0 ≠ 0 := by
      intro hr
      rw [hr, zero_mul] at h00L
      norm_num at h00L
    have hc1z : c1 = 0 := by
      rcases mul_eq_zero.mp hc1 with h | h
      · exact absurd h hr0
      · exact h
    rw [hc1z, mul_zero] at h11L
    norm_num at h11L

end GitTheta

namespace GitTheta

theorem agreeOutside_refl (dims : List Nat) (len : Nat) (idx : List Nat) :
    agreeOutside dims len idx idx = true := by
  simp [agreeOutside]

/-- C2 (amended): exact recovery `apply_update(calculate_update(a, b), b) = a`
holds for the sparse plug-in (raw difference, no thresholding), for the
dense plug-in (stored value returned unchanged), and for the low-rank
plug-in on parameters of fewer than two dimensions (dense delta branch);
for the ia3 plug-in it holds exactly when `a` is a broadcast multiple of
`b` (`a = b · v` for a vector constant along the broadcast axes), which is
also the only situation its own tests exercise — quantifying it over
arbitrary tensor pairs fails, as it also does for the 2-D low-rank SVD
branch, whose rank-truncated factors provably cannot reconstruct a
higher-rank difference (both failures are the conjuncts of the
counterexample theorem above). -/
theorem update_roundtrip_amended :
    (∀ (a b : QTensor) (idx : List Nat),
      (sparseApplyUpdate b (sparseCalculateUpdate a b)).val idx = a.val idx) ∧
    (∀ stored : QTensor, denseApplyUpdate stored = stored) ∧
    (∀ (a b : QTensor) (idx : List Nat), a.shape.length < 2 →
      (lowRankApplyUpdate1d (lowRankCalculateUpdate1d a b) b).val idx = a.val idx) ∧
    (∀ (a b vT : QTensor) (dims : List Nat),
      b.shape = a.shape → vT.shape = reduceShape a.shape dims →
      (∀ j, ValidIdx a.shape j → a.val j = b.val j * bval vT j) →
      ∀ idx, ValidIdx a.shape idx →
        (ia3ApplyUpdate (ia3CalculateUpdate a b dims) b).val idx = a.val idx) := by
  refine ⟨?_, ?_, ?_, ?_⟩
  · intro a b idx
    simp only [sparseApplyUpdate, sparseCalculateUpdate]
    ring
  · intro stored
    rfl
  · intro a b idx _
    simp only [lowRankApplyUpdate1d, lowRankCalculateUpdate1d]
    ring
  · intro a b vT dims hba hvt hprop idx hvidx
    have hshape : (ia3CalculateUpdate a b dims).shape = a.shape := rfl
    have hlhs : (ia3ApplyUpdate (ia3CalculateUpdate a b dims) b).val idx =
        b.val idx * (ia3CalculateUpdate a b dims).val idx := by
      simp only [ia3ApplyUpdate, bval, hshape]
      rw [broadcastIdx_valid a.shape idx hvidx]
    rw [hlhs, ia3_calc_val a b dims idx hba hvidx]
    simp only []
    set grp := (allIdx a.shape).filter
      (fun j => agreeOutside dims a.shape.length j idx) with hgrp
    set cnt := grp.countP (fun j => decide (b.val j ≠ 0)) with hcnt
    have hidxmem : idx ∈ grp := by
      rw [hgrp]
      exact List.mem_filter.mpr ⟨(mem_allIdx_iff _ idx).mpr hvidx,
        agreeOutside_refl dims a.shape.length idx⟩
    have hvr : ∀ j ∈ grp, bval vT j = bval vT idx := by
      intro j hj
      obtain ⟨hjall, hjagree⟩ := List.mem_filter.mp (hgrp ▸ hj)
      unfold bval
      rw [broadcastIdx_reduced_agree a.shape dims vT.shape hvt idx j hvidx
        ((mem_allIdx_iff _ j).mp hjall) hjagree]
    have hratio : grp.map (fun j => if b.val j = 0 then 0 else a.val j / b.val j) =
        grp.map (fun j => if (decide (b.val j ≠ 0)) = true then bval vT idx else 0) := by
      refine List.map_congr_left ?_
      intro j hj
      obtain ⟨hjall, _⟩ := List.mem_filter.mp (hgrp ▸ hj)
      have hvj : ValidIdx a.shape j := (mem_allIdx_iff _ j).mp hjall
      by_cases hz : b.val j = 0
      · simp [hz]
      · rw [if_neg hz, if_pos (by simpa using hz), hprop j hvj, hvr j hj]
        field_simp
    by_cases hc : cnt = 0
    · rw [if_pos hc]
      have hbidx : b.val idx = 0 := by
        have hz := List.countP_eq_zero.mp (hcnt ▸ hc) idx hidxmem
        simpa using hz
      rw [hprop idx hvidx, hbidx]
      ring
    · rw [if_neg hc, hratio, sum_if_count (fun j => decide (b.val j ≠ 0)) (bval vT idx) grp,
        ← hcnt]
      have hcq : (cnt : ℚ) ≠ 0 := Nat.cast_ne_zero.mpr hc
      have hcancel : bval vT idx * (cnt : ℚ) / (cnt : ℚ) = bval vT idx :=
        mul_div_cancel_right₀ _ hcq
      rw [hcancel, hprop idx hvidx]

end GitTheta

namespace GitTheta

/-- Witness for C2: ia3 recovery on a concrete broadcast multiple
(`a = [6,6] = [3,3] · 2`). -/
theorem update_roundtrip_amended_witness :
    (ia3ApplyUpdate
      (ia3CalculateUpdate ⟨[2], fun _ => 6⟩ ⟨[2], fun _ => 3⟩ [0])
      ⟨[2], fun _ => 3⟩).val [0] = (⟨[2], fun _ => 6⟩ : QTensor).val [0] :=
  update_roundtrip_amended.2.2.2 ⟨[2], fun _ => 6⟩ ⟨[2], fun _ => 3⟩ ⟨[1], fun _ => 2⟩ [0]
    rfl (by decide)
    (by
      intro j hj
      have hlen : j.length = 1 := by simpa using hj.1
      obtain ⟨j0, rfl⟩ : ∃ j0, j = [j0] := by
        cases j with
        | nil => simp at hlen
        | cons j0 t =>
            cases t with
            | nil => exact ⟨j0, rfl⟩
            | cons x xs => simp at hlen
      norm_num [bval, broadcastIdx])
    [0] (by decide)

end GitTheta

namespace GitTheta

/-! ## Metadata documents (`git_theta/metadata.py`)

`Metadata` is a nested ordered dict whose leaves are `ParamMetadata`
records; reuse `Nested`.  Serialization goes through the dict handed to
`json.dump` (with `MetadataEncoder` turning the signature `ndarray` into a
list of ints); parsing goes through `Metadata.from_metadata_dict` on the
dict produced by `json.load`.  The Python `json` codec is a standard
library collaborator: it is modelled as the identity between JSON trees and
their canonical rendering, with `renderJson` embedding `json.dump(...,
indent=4)`'s deterministic text form. -/

/-- `TensorMetadata`: shape and dtype strings plus the LSH signature (ints
after `astype(np.int64).tolist()`); equality is field-wise with exact
signature equality. -/
structure TensorMeta where
  shape : String
  dtype : String
  hash : List Int
  deriving DecidableEq, Repr

/-- `LfsMetadata` as carried in a parameter record. -/
structure LfsMeta where
  version : String
  oid : String
  size : String
  deriving DecidableEq, Repr

/-- `ThetaMetadata`. -/
structure ThetaMeta where
  update_type : String
  last_commit : String
  deriving DecidableEq, Repr

/-- `ParamMetadata`: the triple of field groups. -/
structure ParamMeta where
  tensor_metadata : TensorMeta
  lfs_metadata : LfsMeta
  theta_metadata : ThetaMeta
  deriving DecidableEq, Repr

/-- A JSON value (the trees `json.load`/`json.dump` exchange; objects keep
key order as Python dicts do). -/
inductive Json : Type where
  | str (s : String)
  | num (n : Int)
  | arr (xs : List Json)
  | obj (fields : List (String × Json))

/-- `TensorMetadata.serialize` (dataclass field order; the hash `ndarray`
rendered as a JSON array of ints by `MetadataEncoder`). -/
def serializeTensorMeta (tm : TensorMeta) : Json :=
  .obj [("shape", .str tm.shape), ("dtype", .str tm.dtype), ("hash", .arr (tm.hash.map .num))]

/-- `LfsMetadata.serialize`. -/
def serializeLfsMeta (m : LfsMeta) : Json :=
  .obj [("version", .str m.version), ("oid", .str m.oid), ("size", .str m.size)]

/-- `ThetaMetadata.serialize`. -/
def serializeThetaMeta (m : ThetaMeta) : Json :=
  .obj [("update_type", .str m.update_type), ("last_commit", .str m.last_commit)]

/-- `ParamMetadata.serialize` (dataclass field order: tensor, lfs, theta). -/
def serializeParamMeta (pm : ParamMeta) : Json :=
  .obj [("tensor_metadata", serializeTensorMeta pm.tensor_metadata),
    ("lfs_metadata", serializeLfsMeta pm.lfs_metadata),
    ("theta_metadata", serializeThetaMeta pm.theta_metadata)]

mutual
/-- Map a function over the leaves of a nested dict value. -/
def mapNestedVal {β γ : Type} (f : β → γ) : Nested β → Nested γ
  | .leaf b => .leaf (f b)
  | .dict es => .dict (mapNested f es)

/-- Map a function over the leaves of nested dict entries. -/
def mapNested {β γ : Type} (f : β → γ) : List (String × Nested β) → List (String × Nested γ)
  | [] => []
  | (k, v) :: rest => (k, mapNestedVal f v) :: mapNested f rest
end

mutual
/-- Turn a nested dict value with JSON leaves into a JSON value. -/
def nestedValToJson : Nested Json → Json
  | .leaf j => j
  | .dict es => .obj (nestedEntriesToJson es)

/-- Turn nested dict entries with JSON leaves into JSON object fields. -/
def nestedEntriesToJson : List (String × Nested Json) → List (String × Json)
  | [] => []
  | (k, v) :: rest => (k, nestedValToJson v) :: nestedEntriesToJson rest
end

/-- `Metadata.serialize` followed by the tree handed to `json.dump`:
flatten, serialize every record, unflatten, view as a JSON object. -/
def serializeDoc (es : List (String × Nested ParamMeta)) : Option Json :=
  (unflatten ((flattenEntries es []).map (fun pb => (pb.1, serializeParamMeta pb.2)))).map
    (fun t => .obj (nestedEntriesToJson t))

end GitTheta

namespace GitTheta

/-- The `is_leaf` predicate of `Metadata.from_metadata_dict`:
`LfsMetadata.name in v` in Python, i.e. key membership for a dict,
substring test for a string, element equality for a list (a non-string
element never equals a string), and `TypeError` (`none`) for a number. -/
def jsonIsLeaf : Json → Option Bool
  | .obj fields => some (fields.any (fun f => f.1 == "lfs_metadata"))
  | .str s => some (decide (1 < (s.splitOn "lfs_metadata").length))
  | .arr xs => some (xs.any (fun x => match x with
      | .str s => s == "lfs_metadata"
      | _ => false))
  | .num _ => none

/-- `utils.flatten` applied to the loaded JSON dict with the
`lfs_metadata`-membership leaf test; `none` models Python raising on a
non-dict non-leaf. -/
def flattenJson : List (String × Json) → List String → Option (List (List String × Json))
  | [], _ => some []
  | (k, v) :: rest, pre =>
      (jsonIsLeaf v).bind (fun lf =>
        if lf then (flattenJson rest pre).map (fun r => (pre ++ [k], v) :: r)
        else
          match v with
          | .obj fields =>
              (flattenJson fields (pre ++ [k])).bind (fun sub =>
                (flattenJson rest pre).map (fun r => sub ++ r))
          | _ => none)
termination_by es _ => sizeOf es

/-- An integer JSON element (a signature entry). -/
def jsonToInt : Json → Option Int
  | .num n => some n
  | _ => none

/-- `TensorMetadata(**d)`: requires exactly the three dataclass fields
(in any key order); the hash list must be integers
(`__post_init__` turns it into an `ndarray`). -/
def parseTensorMeta : Json → Option TensorMeta
  | .obj fields =>
      if fields.length = 3 then
        match lookupN fields "shape", lookupN fields "dtype", lookupN fields "hash" with
        | some (Json.str sh), some (Json.str dt), some (Json.arr hs) =>
            (hs.mapM jsonToInt).map (fun l => ⟨sh, dt, l⟩)
        | _, _, _ => none
      else none
  | _ => none

/-- `LfsMetadata(**d)`. -/
def parseLfsMeta : Json → Option LfsMeta
  | .obj fields =>
      if fields.length = 3 then
        match lookupN fields "version", lookupN fields "oid", lookupN fields "size" with
        | some (.str v), some (.str o), some (.str n) => some ⟨v, o, n⟩
        | _, _, _ => none
      else none
  | _ => none

/-- `ThetaMetadata(**d)`. -/
def parseThetaMeta : Json → Option ThetaMeta
  | .obj fields =>
      if fields.length = 2 then
        match lookupN fields "update_type", lookupN fields "last_commit" with
        | some (.str u), some (.str l) => some ⟨u, l⟩
        | _, _ => none
      else none
  | _ => none

/-- `ParamMetadata.from_metadata_dict`. -/
def parseParamMeta : Json → Option ParamMeta
  | .obj fields =>
      match lookupN fields "tensor_metadata", lookupN fields "lfs_metadata",
          lookupN fields "theta_metadata" with
      | some tmj, some lfj, some thj =>
          (parseTensorMeta tmj).bind (fun tm =>
            (parseLfsMeta lfj).bind (fun lf =>
              (parseThetaMeta thj).map (fun th => ⟨tm, lf, th⟩)))
      | _, _, _ => none
  | _ => none

/-- `Metadata.from_metadata_dict` on the tree `json.load` produced:
flatten with the `lfs_metadata` leaf test, parse every record,
unflatten. -/
def fromMetadataDict (j : Json) : Option (List (String × Nested ParamMeta)) :=
  match j with
  | .obj fields =>
      (flattenJson fields []).bind (fun flat =>
        (flat.mapM (fun pb => (parseParamMeta pb.2).map (fun pm => (pb.1, pm)))).bind
          (fun flat2 => unflatten flat2))
  | _ => none

end GitTheta

namespace GitTheta

/-- One hex digit. -/
def hexDigit (n : Nat) : Char :=
  if n < 10 then Char.ofNat (48 + n) else Char.ofNat (87 + (n % 16))

/-- Four hex digits, as in `\uXXXX`. -/
def hex4 (n : Nat) : String :=
  String.mk [hexDigit (n / 4096 % 16), hexDigit (n / 256 % 16), hexDigit (n / 16 % 16),
    hexDigit (n % 16)]

/-- `json.dump`'s string escaping with the default `ensure_ascii=True`
(control characters and non-ASCII escaped; astral characters would use
surrogate pairs, elided here as the documents are ASCII). -/
def escapeJsonChar (c : Char) : String :=
  if c = '"' then "\\\""
  else if c = '\\' then "\\\\"
  else if c = '\n' then "\\n"
  else if c = '\t' then "\\t"
  else if c = '\r' then "\\r"
  else if c = Char.ofNat 8 then "\\b"
  else if c = Char.ofNat 12 then "\\f"
  else if c.toNat < 32 || 127 ≤ c.toNat then "\\u" ++ hex4 c.toNat
  else String.singleton c

/-- Render a JSON string literal. -/
def renderJsonString (s : String) : String :=
  "\"" ++ String.join (s.data.map escapeJsonChar) ++ "\""

/-- `level` copies of the four-space indent `json.dump(..., indent=4)`
writes. -/
def jsonPad (level : Nat) : String := String.mk (List.replicate (4 * level) ' ')

mutual
/-- `json.dump(..., indent=4)`: the deterministic text of a JSON value at
an indent level (item separator `,\n`, key separator `: `). -/
def renderJson : Json → Nat → String
  | .str s, _ => renderJsonString s
  | .num n, _ => toString n
  | .arr [], _ => "[]"
  | .arr (x :: xs), level =>
      "[\n" ++ jsonPad (level + 1) ++ renderJson x (level + 1) ++
        renderJsonArrayTail xs (level + 1) ++ "\n" ++ jsonPad level ++ "]"
  | .obj [], _ => "\x7b\x7d"
  | .obj ((k, v) :: fs), level =>
      "\x7b\n" ++ jsonPad (level + 1) ++ renderJsonString k ++ ": " ++
        renderJson v (level + 1) ++ renderJsonObjTail fs (level + 1) ++ "\n" ++
        jsonPad level ++ "\x7d"

/-- Remaining array items, each preceded by `,\n` and indentation. -/
def renderJsonArrayTail : List Json → Nat → String
  | [], _ => ""
  | x :: xs, level =>
      ",\n" ++ jsonPad level ++ renderJson x level ++ renderJsonArrayTail xs level

/-- Remaining object fields. -/
def renderJsonObjTail : List (String × Json) → Nat → String
  | [], _ => ""
  | (k, v) :: fs, level =>
      ",\n" ++ jsonPad level ++ renderJsonString k ++ ": " ++ renderJson v level ++
        renderJsonObjTail fs level
end

/-- `Metadata.write`: the bytes `json.dump(self.serialize(), f, indent=4,
cls=MetadataEncoder)` produces. -/
def serializeBytes (es : List (String × Nested ParamMeta)) : Option String :=
  (serializeDoc es).map (fun j => renderJson j 0)

end GitTheta

namespace GitTheta

mutual
/-- Direct-key check of the document well-formedness: no dictionary level
of a metadata document uses the reserved field name `lfs_metadata` as a
parameter-name component (otherwise the `is_leaf` test of
`from_metadata_dict` would misread an inner node as a record). -/
def noLfsValB {β : Type} : Nested β → Bool
  | .leaf _ => true
  | .dict es => noLfsKeysB es

/-- Entry-list form of `noLfsValB`. -/
def noLfsKeysB {β : Type} : List (String × Nested β) → Bool
  | [] => true
  | (k, v) :: rest => !(k == "lfs_metadata") && noLfsValB v && noLfsKeysB rest
end

/-- A valid metadata document: well-formed nesting and no component named
`lfs_metadata`. -/
def WFDoc (es : List (String × Nested ParamMeta)) : Prop :=
  WFEntries es ∧ noLfsKeysB es = true

theorem mapNested_flatten {β γ : Type} (f : β → γ) :
    ∀ (es : List (String × Nested β)) (pre : List String),
    flattenEntries (mapNested f es) pre =
      (flattenEntries es pre).map (fun pb => (pb.1, f pb.2))
  | [], pre => by simp [mapNested, flattenEntries]
  | (k, .leaf b) :: rest, pre => by
      simp only [mapNested, mapNestedVal, flattenEntries, List.map_cons]
      rw [mapNested_flatten f rest pre]
  | (k, .dict sub) :: rest, pre => by
      simp only [mapNested, mapNestedVal, flattenEntries, List.map_append]
      rw [mapNested_flatten f sub (pre ++ [k]), mapNested_flatten f rest pre]
termination_by es _ => sizeOf es

theorem mapNested_keysOf {β γ : Type} (f : β → γ) :
    ∀ es : List (String × Nested β), keysOf (mapNested f es) = keysOf es
  | [] => rfl
  | (k, v) :: rest => by
      simp only [mapNested, keysOf, List.map_cons]
      have := mapNested_keysOf f rest
      simp only [keysOf] at this
      rw [this]

theorem mem_mapNested {β γ : Type} (f : β → γ) :
    ∀ (es : List (String × Nested β)) (p : String × Nested γ),
    p ∈ mapNested f es ↔ ∃ q ∈ es, p = (q.1, mapNestedVal f q.2)
  | [], p => by simp [mapNested]
  | (k, v) :: rest, p => by
      rw [mapNested]
      simp only [List.mem_cons, mem_mapNested f rest p]
      constructor
      · rintro (h1 | ⟨q, hq, h1⟩)
        · exact ⟨(k, v), by simp, h1⟩
        · exact ⟨q, by simp [hq], h1⟩
      · rintro ⟨q, hq, h1⟩
        rcases hq with h2 | h2
        · subst h2; exact Or.inl h1
        · exact Or.inr ⟨q, h2, h1⟩

theorem wfval_dict_ne {β : Type} {es : List (String × Nested β)}
    (h : WFVal (Nested.dict es)) : es ≠ [] := by cases h; assumption

theorem wfval_dict_nd {β : Type} {es : List (String × Nested β)}
    (h : WFVal (Nested.dict es)) : (keysOf es).Nodup := by cases h; assumption

theorem wfval_dict_mem {β : Type} {es : List (String × Nested β)}
    (h : WFVal (Nested.dict es)) : ∀ p ∈ es, WFVal p.2 := by cases h; assumption

theorem mapNestedVal_wf {β γ : Type} (f : β → γ) :
    ∀ v : Nested β, WFVal v → WFVal (mapNestedVal f v)
  | .leaf b, _ => by rw [mapNestedVal]; exact WFVal.leaf _
  | .dict es, h => by
      rw [mapNestedVal]
      refine WFVal.dict _ ?_ ?_ ?_
      · have hne := wfval_dict_ne h
        cases es with
        | nil => exact absurd rfl hne
        | cons p rest => rw [mapNested]; simp
      · rw [mapNested_keysOf]; exact wfval_dict_nd h
      · intro p hp
        obtain ⟨q, hq, rfl⟩ := (mem_mapNested f es p).mp hp
        have hlt : sizeOf q.2 < sizeOf (Nested.dict es) := by
          have h1 := List.sizeOf_lt_of_mem hq
          have h2 : sizeOf q.2 ≤ sizeOf q := by
            obtain ⟨q1, q2⟩ := q
            simp only [Prod.mk.sizeOf_spec]
            omega
          simp only [Nested.dict.sizeOf_spec]
          omega
        exact mapNestedVal_wf f q.2 (wfval_dict_mem h q hq)
termination_by v _ => sizeOf v
decreasing_by
  simpa using hlt

end GitTheta

namespace GitTheta

theorem nej_mapNested_nil {β : Type} (f : β → ParamMeta) :
    nestedEntriesToJson (mapNested (fun b => serializeParamMeta (f b)) []) = [] := rfl

theorem jsonIsLeaf_serializeParamMeta (pm : ParamMeta) :
    jsonIsLeaf (serializeParamMeta pm) = some true := rfl

theorem internal_not_leaf :
    ∀ sub : List (String × Nested ParamMeta), noLfsKeysB sub = true →
    (nestedEntriesToJson (mapNested serializeParamMeta sub)).any
      (fun f2 => f2.1 == "lfs_metadata") = false
  | [], _ => rfl
  | (k, v) :: rest, h => by
      rw [noLfsKeysB, Bool.and_eq_true, Bool.and_eq_true] at h
      obtain ⟨⟨hk, _⟩, hrest⟩ := h
      rw [mapNested, nestedEntriesToJson, List.any_cons, internal_not_leaf rest hrest]
      simpa using hk

theorem flattenJson_serialized :
    ∀ (es : List (String × Nested ParamMeta)) (pre : List String), noLfsKeysB es = true →
    flattenJson (nestedEntriesToJson (mapNested serializeParamMeta es)) pre =
      some ((flattenEntries es pre).map (fun pb => (pb.1, serializeParamMeta pb.2)))
  | [], pre, _ => by simp [mapNested, nestedEntriesToJson, flattenJson, flattenEntries]
  | (k, .leaf pm) :: rest, pre, h => by
      rw [noLfsKeysB, Bool.and_eq_true, Bool.and_eq_true] at h
      obtain ⟨⟨hk, _⟩, hrest⟩ := h
      rw [mapNested, mapNestedVal, nestedEntriesToJson, nestedValToJson]
      rw [show serializeParamMeta pm = Json.obj
        [("tensor_metadata", serializeTensorMeta pm.tensor_metadata),
         ("lfs_metadata", serializeLfsMeta pm.lfs_metadata),
         ("theta_metadata", serializeThetaMeta pm.theta_metadata)] from rfl]
      simp only [flattenJson]
      rw [show jsonIsLeaf (Json.obj
        [("tensor_metadata", serializeTensorMeta pm.tensor_metadata),
         ("lfs_metadata", serializeLfsMeta pm.lfs_metadata),
         ("theta_metadata", serializeThetaMeta pm.theta_metadata)]) = some true from rfl]
      simp only [Option.some_bind, if_true]
      rw [flattenJson_serialized rest pre hrest]
      simp only [flattenEntries, List.map_cons]
      rfl
  | (k, .dict sub) :: rest, pre, h => by
      rw [noLfsKeysB, Bool.and_eq_true, Bool.and_eq_true] at h
      obtain ⟨⟨hk, hv⟩, hrest⟩ := h
      rw [noLfsValB] at hv
      rw [mapNested, mapNestedVal, nestedEntriesToJson, nestedValToJson]
      have hleaf : jsonIsLeaf (Json.obj (nestedEntriesToJson (mapNested serializeParamMeta sub))) =
          some false := by
        rw [show jsonIsLeaf (Json.obj (nestedEntriesToJson (mapNested serializeParamMeta sub))) =
          some ((nestedEntriesToJson (mapNested serializeParamMeta sub)).any
            (fun f2 => f2.1 == "lfs_metadata")) from rfl, internal_not_leaf sub hv]
      simp only [flattenJson, hleaf, Option.some_bind, Bool.false_eq_true, if_false]
      rw [flattenJson_serialized sub (pre ++ [k]) hv, flattenJson_serialized rest pre hrest]
      simp only [Option.some_bind, flattenEntries, List.map_append]
      rfl
termination_by es _ _ => sizeOf es

theorem mapM_num_loop : ∀ (l acc : List Int),
    List.mapM.loop jsonToInt (l.map Json.num) acc = some (acc.reverse ++ l)
  | [], acc => by simp [List.mapM.loop]
  | n :: l, acc => by
      simp [List.mapM.loop, jsonToInt, mapM_num_loop l (n :: acc)]

theorem mapM_num_map (l : List Int) :
    (l.map Json.num).mapM jsonToInt = some l := by
  rw [show ((l.map Json.num).mapM jsonToInt) =
    List.mapM.loop jsonToInt (l.map Json.num) [] from rfl, mapM_num_loop l []]
  simp

theorem parse_serialize_param (pm : ParamMeta) :
    parseParamMeta (serializeParamMeta pm) = some pm := by
  obtain ⟨⟨sh, dt, hs⟩, ⟨v, o, n⟩, ⟨u, lc⟩⟩ := pm
  simp only [serializeParamMeta, parseParamMeta, serializeTensorMeta, serializeLfsMeta,
    serializeThetaMeta, parseTensorMeta, parseLfsMeta, parseThetaMeta]
  simp [lookupN, mapM_num_loop hs []]

theorem mapM_parse_serialized :
    ∀ flat : List (List String × ParamMeta),
    ((flat.map (fun pb => (pb.1, serializeParamMeta pb.2))).mapM
      (fun pb => (parseParamMeta pb.2).map (fun pm => (pb.1, pm)))) = some flat
  | [] => rfl
  | (p, pm) :: flat => by
      rw [List.map_cons, List.mapM_cons]
      simp only [parse_serialize_param pm, Option.map_some, mapM_parse_serialized flat]
      rfl

end GitTheta

namespace GitTheta

/-- C3: for every valid Metadata document, parsing its serialization gives
back an equal document (tensor metadata equality is field-wise with exact
signature-vector equality, which is structural equality of `TensorMeta`),
and serializing the re-parsed document yields a byte-identical string
(`json.dump` is deterministic on equal trees, rendered by `renderJson`). -/
theorem metadata_parse_serialize_roundtrip :
    ∀ es : List (String × Nested ParamMeta), WFDoc es →
      ∃ j, serializeDoc es = some j ∧ fromMetadataDict j = some es ∧
        ((fromMetadataDict j).bind (fun es2 => serializeBytes es2)) = serializeBytes es := by
  rintro es ⟨⟨hnd, hwfv⟩, hnolfs⟩
  have hmapped : (flattenEntries es []).map (fun pb => (pb.1, serializeParamMeta pb.2)) =
      flattenEntries (mapNested serializeParamMeta es) [] :=
    (mapNested_flatten serializeParamMeta es []).symm
  have hwfmapped : ∀ p ∈ mapNested serializeParamMeta es, WFVal p.2 := by
    intro p hp
    obtain ⟨q, hq, rfl⟩ := (mem_mapNested serializeParamMeta es p).mp hp
    exact mapNestedVal_wf serializeParamMeta q.2 (hwfv q hq)
  have hunfl : unflatten ((flattenEntries es []).map
      (fun pb => (pb.1, serializeParamMeta pb.2))) =
      some (mapNested serializeParamMeta es) := by
    rw [hmapped, unflatten_eq_foldInsert]
    have hndm : (keysOf (mapNested serializeParamMeta es)).Nodup := by
      rw [mapNested_keysOf]
      exact hnd
    have := foldInsert_flatten (mapNested serializeParamMeta es) [] hndm
      hwfmapped (fun _ _ => rfl)
    simpa using this
  refine ⟨Json.obj (nestedEntriesToJson (mapNested serializeParamMeta es)), ?_, ?_, ?_⟩
  · unfold serializeDoc
    rw [hunfl]
    rfl
  · show (flattenJson (nestedEntriesToJson (mapNested serializeParamMeta es)) []).bind
      (fun flat => (flat.mapM (fun pb => (parseParamMeta pb.2).map
        (fun pm => (pb.1, pm)))).bind (fun flat2 => unflatten flat2)) = some es
    rw [flattenJson_serialized es [] hnolfs, Option.some_bind,
      mapM_parse_serialized (flattenEntries es []), Option.some_bind,
      unflatten_eq_foldInsert]
    simpa using foldInsert_flatten es [] hnd hwfv (fun _ _ => rfl)
  · have hparse : fromMetadataDict (Json.obj (nestedEntriesToJson
        (mapNested serializeParamMeta es))) = some es := by
      show (flattenJson (nestedEntriesToJson (mapNested serializeParamMeta es)) []).bind
        (fun flat => (flat.mapM (fun pb => (parseParamMeta pb.2).map
          (fun pm => (pb.1, pm)))).bind (fun flat2 => unflatten flat2)) = some es
      rw [flattenJson_serialized es [] hnolfs, Option.some_bind,
        mapM_parse_serialized (flattenEntries es []), Option.some_bind,
        unflatten_eq_foldInsert]
      simpa using foldInsert_flatten es [] hnd hwfv (fun _ _ => rfl)
    rw [hparse]
    rfl

end GitTheta

namespace GitTheta

/-- Witness for C3: the round-trip on a concrete one-parameter document. -/
theorem metadata_parse_serialize_roundtrip_witness :
    ∃ j, serializeDoc [("a", Nested.leaf (⟨⟨"(4,)", "float32", [1, 2]⟩,
        ⟨"https://git-lfs.github.com/spec/v1", oidZeros, "16"⟩, ⟨"dense", ""⟩⟩ : ParamMeta))] =
        some j ∧
      fromMetadataDict j = some [("a", Nested.leaf (⟨⟨"(4,)", "float32", [1, 2]⟩,
        ⟨"https://git-lfs.github.com/spec/v1", oidZeros, "16"⟩, ⟨"dense", ""⟩⟩ : ParamMeta))] ∧
      ((fromMetadataDict j).bind (fun es2 => serializeBytes es2)) =
        serializeBytes [("a", Nested.leaf (⟨⟨"(4,)", "float32", [1, 2]⟩,
          ⟨"https://git-lfs.github.com/spec/v1", oidZeros, "16"⟩, ⟨"dense", ""⟩⟩ : ParamMeta))] :=
  metadata_parse_serialize_roundtrip _
    ⟨⟨by decide, by
      intro p hp
      rcases List.mem_cons.mp hp with h | h
      · subst h; exact WFVal.leaf _
      · simp at h⟩, by decide⟩

end GitTheta

namespace GitTheta

/-! ## The clean filter driver (`git_theta/filters.py`)

`clean` flattens the checkpoint, sorts the parameter keys, runs the
per-parameter `_clean` coroutine over every key (concurrently через
`async_utils.run_map`, whose `asyncio.gather` returns results in argument
order regardless of completion order), assembles the result dict and
unflattens it.  The per-parameter step is pure given the run's
surroundings, which are collected in `CleanCtx`: the LSH hasher, the
selected update handler, the configured tolerances, and the object-store
write (its returned pointer is a function of the written content). -/

/-- The surroundings `_clean` consults for one run of the filter. -/
structure CleanCtx (V : Type) where
  newTM : List String → V → TensorMeta
  willUpdate : List String → Bool
  distance : List Int → List Int → ℚ
  allclose : List String → V → Bool
  write : List String → V → LfsMeta × Option (List Int)
  atol : ℚ
  lshThreshold : ℚ
  updateName : String
  headCommit : String

/-- What one `_clean` task produced: the emitted record, whether
`update_handler.write` ran (an object-store write), and whether the
previous tensor was loaded for the `np.allclose` fallback. -/
structure CleanResult where
  meta : ParamMeta
  wrote : Bool
  loadedPrev : Bool
  deriving DecidableEq, Repr

/-- The fall-through tail of `_clean`: build fresh `ThetaMetadata`, write
the parameter through the update handler, substitute the returned hash
when present, and assemble the record. -/
def cleanParamWriteNew {V : Type} (ctx : CleanCtx V) (key : List String) (v : V)
    (loaded : Bool) : CleanResult :=
  let tmNew := ctx.newTM key v
  let res := ctx.write key v
  { meta := ⟨{ tmNew with hash := res.2.getD tmNew.hash }, res.1,
      ⟨ctx.updateName, ctx.headCommit⟩⟩,
    wrote := true, loadedPrev := loaded }

/-- `_clean` for one parameter: reuse the previous record when the key
exists with equal shape and dtype, no side-loaded update applies, and
either the LSH distance is below `PARAMETER_ATOL` or it is below
`LSH_THRESHOLD` and the loaded tensors pass `np.allclose`; otherwise fall
through and write the new value. -/
def cleanParam {V : Type} (ctx : CleanCtx V) (prevMeta : Option ParamMeta)
    (key : List String) (v : V) : CleanResult :=
  let tmNew := ctx.newTM key v
  match prevMeta with
  | some pm =>
      if pm.tensor_metadata.shape = tmNew.shape ∧ pm.tensor_metadata.dtype = tmNew.dtype ∧
          ctx.willUpdate key = false then
        if ctx.distance pm.tensor_metadata.hash tmNew.hash < ctx.atol then
          ⟨pm, false, false⟩
        else if ctx.distance pm.tensor_metadata.hash tmNew.hash < ctx.lshThreshold then
          if ctx.allclose key v then ⟨pm, false, true⟩
          else cleanParamWriteNew ctx key v true
        else cleanParamWriteNew ctx key v false
      else cleanParamWriteNew ctx key v false
  | none => cleanParamWriteNew ctx key v false

/-- C1: when the key exists in the previous metadata with equal shape and
dtype and `will_update` is false, (i) a distance strictly below
`PARAMETER_ATOL` emits the previous record verbatim — same record, no
object-store write, no load of the previous tensor; (ii) at distance
exactly `PARAMETER_ATOL` that branch is not taken (the step loads the
previous tensor for the `np.allclose` fallback or writes); (iii) at
distance exactly `LSH_THRESHOLD` the `np.allclose` fallback branch is not
taken (the previous tensor is never loaded, and unless the distance is
below `PARAMETER_ATOL` the parameter is rewritten). -/
theorem clean_lsh_reuse_strict {V : Type} (ctx : CleanCtx V) (pm : ParamMeta)
    (key : List String) (v : V)
    (hshape : pm.tensor_metadata.shape = (ctx.newTM key v).shape)
    (hdtype : pm.tensor_metadata.dtype = (ctx.newTM key v).dtype)
    (hwill : ctx.willUpdate key = false) :
    (ctx.distance pm.tensor_metadata.hash (ctx.newTM key v).hash < ctx.atol →
      cleanParam ctx (some pm) key v = ⟨pm, false, false⟩) ∧
    (ctx.distance pm.tensor_metadata.hash (ctx.newTM key v).hash = ctx.atol →
      (cleanParam ctx (some pm) key v).loadedPrev = true ∨
        (cleanParam ctx (some pm) key v).wrote = true) ∧
    (ctx.distance pm.tensor_metadata.hash (ctx.newTM key v).hash = ctx.lshThreshold →
      (cleanParam ctx (some pm) key v).loadedPrev = false ∧
      (ctx.atol ≤ ctx.distance pm.tensor_metadata.hash (ctx.newTM key v).hash →
        (cleanParam ctx (some pm) key v).wrote = true)) := by
  unfold cleanParam
  simp only []
  rw [if_pos ⟨hshape, hdtype, hwill⟩]
  refine ⟨?_, ?_, ?_⟩
  · intro hlt
    rw [if_pos hlt]
  · intro heq
    rw [if_neg (by rw [heq]; exact lt_irrefl _)]
    by_cases hlsh : ctx.distance pm.tensor_metadata.hash (ctx.newTM key v).hash <
        ctx.lshThreshold
    · rw [if_pos hlsh]
      by_cases hac : ctx.allclose key v
      · rw [if_pos hac]; left; rfl
      · rw [if_neg hac]; left; rfl
    · rw [if_neg hlsh]; right; rfl
  · intro heq
    rw [if_neg (show ¬ (ctx.distance pm.tensor_metadata.hash (ctx.newTM key v).hash <
        ctx.lshThreshold) from by rw [heq]; exact lt_irrefl _)]
    by_cases hatol : ctx.distance pm.tensor_metadata.hash (ctx.newTM key v).hash < ctx.atol
    · rw [if_pos hatol]
      exact ⟨rfl, fun hle => absurd hatol (not_lt.mpr hle)⟩
    · rw [if_neg hatol]
      exact ⟨rfl, fun _ => rfl⟩

/-- Witness for C1: a concrete context with distance `0 < atol` reuses the
record verbatim. -/
theorem clean_lsh_reuse_strict_witness :
    cleanParam
      (⟨fun _ _ => ⟨"(1,)", "float32", [0]⟩, fun _ => false, fun _ _ => 0,
        fun _ _ => true, fun _ _ => (⟨"v1", "", "0"⟩, none), 1/100000000, 1/1000000,
        "dense", ""⟩ : CleanCtx Unit)
      (some ⟨⟨"(1,)", "float32", [0]⟩, ⟨"v1", "", "4"⟩, ⟨"dense", "c0"⟩⟩) ["a"] () =
      ⟨⟨⟨"(1,)", "float32", [0]⟩, ⟨"v1", "", "4"⟩, ⟨"dense", "c0"⟩⟩, false, false⟩ :=
  (clean_lsh_reuse_strict _ _ ["a"] () rfl rfl rfl).1 (by norm_num)

end GitTheta

namespace GitTheta

/-! ## Python ordering of strings and key tuples

`clean` sorts the flattened checkpoint items with Python `sorted`, which
compares the key tuples lexicographically; string components compare
lexicographically by code point.  `lexLtB` is that comparison for lists
over any element order. -/

/-- Lexicographic strict comparison of lists given a strict comparison of
elements (Python `<` on tuples and on strings). -/
def lexLtB {α : Type} [DecidableEq α] (ltb : α → α → Bool) : List α → List α → Bool
  | [], [] => false
  | [], _ :: _ => true
  | _ :: _, [] => false
  | a :: as, b :: bs => if ltb a b then true else if a = b then lexLtB ltb as bs else false

theorem lexLtB_irrefl {α : Type} [DecidableEq α] (ltb : α → α → Bool)
    (hirr : ∀ a, ltb a a = false) : ∀ l, lexLtB ltb l l = false
  | [] => rfl
  | a :: as => by simp [lexLtB, hirr a, lexLtB_irrefl ltb hirr as]

theorem lexLtB_trans {α : Type} [DecidableEq α] (ltb : α → α → Bool)
    (htr : ∀ a b c, ltb a b = true → ltb b c = true → ltb a c = true) :
    ∀ l₁ l₂ l₃, lexLtB ltb l₁ l₂ = true → lexLtB ltb l₂ l₃ = true → lexLtB ltb l₁ l₃ = true
  | l₁, [], l₃, h12, _ => by cases l₁ <;> simp [lexLtB] at h12
  | l₁, _ :: _, [], _, h23 => by simp [lexLtB] at h23
  | [], _ :: _, _ :: _, _, _ => by simp [lexLtB]
  | a :: as, b :: bs, c :: cs, h12, h23 => by
      simp only [lexLtB] at h12 h23 ⊢
      by_cases hab : ltb a b = true
      · by_cases hbc : ltb b c = true
        · simp [htr a b c hab hbc]
        · simp only [hbc, if_false] at h23
          by_cases hbce : b = c
          · subst hbce; simp [hab]
          · rw [if_neg hbce] at h23; exact absurd h23 (by simp)
      · simp only [hab, if_false] at h12
        by_cases habe : a = b
        · subst habe
          rw [if_pos rfl] at h12
          by_cases hac : ltb a c = true
          · simp [hac]
          · simp only [hac, if_false] at h23 ⊢
            by_cases hace : a = c
            · subst hace
              rw [if_pos rfl] at h23 ⊢
              exact lexLtB_trans ltb htr as bs cs h12 h23
            · rw [if_neg hace] at h23; exact absurd h23 (by simp)
        · rw [if_neg habe] at h12; exact absurd h12 (by simp)

theorem lexLtB_trich {α : Type} [DecidableEq α] (ltb : α → α → Bool)
    (htri : ∀ a b, a = b ∨ ltb a b = true ∨ ltb b a = true) :
    ∀ l₁ l₂, l₁ = l₂ ∨ lexLtB ltb l₁ l₂ = true ∨ lexLtB ltb l₂ l₁ = true
  | [], [] => Or.inl rfl
  | [], _ :: _ => Or.inr (Or.inl rfl)
  | _ :: _, [] => Or.inr (Or.inr rfl)
  | a :: as, b :: bs => by
      rcases htri a b with hab | hab | hab
      · subst hab
        rcases lexLtB_trich ltb htri as bs with h | h | h
        · exact Or.inl (by rw [h])
        · refine Or.inr (Or.inl ?_)
          by_cases h0 : ltb a a = true
          · simp [lexLtB, h0]
          · simp [lexLtB, h0, h]
        · refine Or.inr (Or.inr ?_)
          by_cases h0 : ltb a a = true
          · simp [lexLtB, h0]
          · simp [lexLtB, h0, h]
      · exact Or.inr (Or.inl (by simp [lexLtB, hab]))
      · exact Or.inr (Or.inr (by simp [lexLtB, hab]))

theorem lexLtB_asym {α : Type} [DecidableEq α] (ltb : α → α → Bool)
    (hirr : ∀ a, ltb a a = false)
    (htr : ∀ a b c, ltb a b = true → ltb b c = true → ltb a c = true)
    (l₁ l₂ : List α) (h1 : lexLtB ltb l₁ l₂ = true) (h2 : lexLtB ltb l₂ l₁ = true) : False := by
  have := lexLtB_trans ltb htr l₁ l₂ l₁ h1 h2
  rw [lexLtB_irrefl ltb hirr l₁] at this
  exact absurd this (by simp)

/-- Code-point comparison of characters. -/
def charLtB (c d : Char) : Bool := decide (c < d)

/-- Python `<` on strings: lexicographic by code point. -/
def strLtB (s t : String) : Bool := lexLtB charLtB s.data t.data

/-- Python `<` on parameter-key tuples: lexicographic by string component. -/
def keyLtB (p q : List String) : Bool := lexLtB strLtB p q

/-- Python `<=` on key tuples, written as a negated `<` the way `sorted`
consumes it. -/
def keyLeB (p q : List String) : Bool := !keyLtB q p

theorem charLtB_irrefl (c : Char) : charLtB c c = false :=
  decide_eq_false (lt_irrefl c)

theorem charLtB_trans (a b c : Char) (h1 : charLtB a b = true) (h2 : charLtB b c = true) :
    charLtB a c = true :=
  decide_eq_true (lt_trans (of_decide_eq_true h1) (of_decide_eq_true h2))

theorem charLtB_trich (a b : Char) : a = b ∨ charLtB a b = true ∨ charLtB b a = true := by
  rcases lt_trichotomy a b with h | h | h
  · exact Or.inr (Or.inl (decide_eq_true h))
  · exact Or.inl h
  · exact Or.inr (Or.inr (decide_eq_true h))

theorem strLtB_irrefl (s : String) : strLtB s s = false :=
  lexLtB_irrefl charLtB charLtB_irrefl s.data

theorem strLtB_trans (a b c : String) (h1 : strLtB a b = true) (h2 : strLtB b c = true) :
    strLtB a c = true :=
  lexLtB_trans charLtB charLtB_trans a.data b.data c.data h1 h2

theorem strLtB_trich (a b : String) : a = b ∨ strLtB a b = true ∨ strLtB b a = true := by
  rcases lexLtB_trich charLtB charLtB_trich a.data b.data with h | h | h
  · exact Or.inl (String.ext h)
  · exact Or.inr (Or.inl h)
  · exact Or.inr (Or.inr h)

theorem keyLtB_irrefl (p : List String) : keyLtB p p = false :=
  lexLtB_irrefl strLtB strLtB_irrefl p

theorem keyLtB_trans (a b c : List String) (h1 : keyLtB a b = true) (h2 : keyLtB b c = true) :
    keyLtB a c = true :=
  lexLtB_trans strLtB strLtB_trans a b c h1 h2

theorem keyLtB_trich (a b : List String) : a = b ∨ keyLtB a b = true ∨ keyLtB b a = true :=
  lexLtB_trich strLtB strLtB_trich a b

theorem keyLtB_asym (a b : List String) (h1 : keyLtB a b = true) (h2 : keyLtB b a = true) :
    False :=
  lexLtB_asym strLtB strLtB_irrefl strLtB_trans a b h1 h2

theorem keyLtB_ne (a b : List String) (h : keyLtB a b = true) : a ≠ b := by
  intro hc; subst hc; rw [keyLtB_irrefl a] at h; exact absurd h (by simp)

theorem keyLeB_total (a b : List String) : keyLeB a b = true ∨ keyLeB b a = true := by
  unfold keyLeB
  cases hba : keyLtB b a with
  | false => exact Or.inl rfl
  | true =>
      cases hab : keyLtB a b with
      | false => exact Or.inr rfl
      | true => exact absurd (keyLtB_asym a b hab hba) not_false

theorem keyLeB_trans (a b c : List String) (h1 : keyLeB a b = true) (h2 : keyLeB b c = true) :
    keyLeB a c = true := by
  unfold keyLeB at h1 h2 ⊢
  cases hca : keyLtB c a with
  | false => rfl
  | true =>
      exfalso
      rcases keyLtB_trich a b with he | hab | hba
      · subst he; rw [hca] at h2; exact absurd h2 (by simp)
      · have := keyLtB_trans c a b hca hab
        rw [this] at h2; exact absurd h2 (by simp)
      · rw [hba] at h1; exact absurd h1 (by simp)

theorem keyLtB_of_le_of_ne (a b : List String) (h : keyLeB a b = true) (hne : a ≠ b) :
    keyLtB a b = true := by
  unfold keyLeB at h
  rcases keyLtB_trich a b with he | hab | hba
  · exact absurd he hne
  · exact hab
  · rw [hba] at h; exact absurd h (by simp)

end GitTheta

namespace GitTheta

/-! ## `sorted(checkpoint.flatten().items())` and `async_utils.run_map` -/

/-- `sorted` over the flattened checkpoint items: Python's stable sort by
tuple comparison; with unique keys only the key tuples are ever compared. -/
def sortByKey {V : Type} (l : List (List String × V)) : List (List String × V) :=
  List.insertionSort (fun a b => keyLeB a.1 b.1 = true) l

theorem sortByKey_perm {V : Type} (l : List (List String × V)) : (sortByKey l).Perm l :=
  List.perm_insertionSort _ l

theorem sortByKey_sorted {V : Type} (l : List (List String × V)) :
    (sortByKey l).Pairwise (fun a b => keyLeB a.1 b.1 = true) :=
  @List.sorted_insertionSort (List String × V) (fun a b => keyLeB a.1 b.1 = true) _
    ⟨fun a b => keyLeB_total a.1 b.1⟩
    ⟨fun a b c h1 h2 => keyLeB_trans a.1 b.1 c.1 h1 h2⟩ l

theorem sortByKey_strict {V : Type} (l : List (List String × V))
    (hnd : (l.map Prod.fst).Nodup) :
    (sortByKey l).Pairwise (fun a b => keyLtB a.1 b.1 = true) := by
  have hperm : ((sortByKey l).map Prod.fst).Perm (l.map Prod.fst) :=
    (sortByKey_perm l).map Prod.fst
  have hnd2 : ((sortByKey l).map Prod.fst).Nodup := hperm.nodup_iff.mpr hnd
  have hne : (sortByKey l).Pairwise (fun a b => a.1 ≠ b.1) :=
    (List.pairwise_map).mp hnd2
  exact ((sortByKey_sorted l).and hne).imp
    (fun h => keyLtB_of_le_of_ne _ _ h.1 h.2)

theorem sortByKey_eq_of_perm {V : Type} (l₁ l₂ : List (List String × V))
    (hperm : l₁.Perm l₂) (hnd : (l₁.map Prod.fst).Nodup) :
    sortByKey l₁ = sortByKey l₂ := by
  have hnd₂ : (l₂.map Prod.fst).Nodup := (hperm.map Prod.fst).nodup_iff.mp hnd
  have h₁ : List.Sorted (fun a b : List String × V => keyLtB a.1 b.1 = true) (sortByKey l₁) :=
    sortByKey_strict l₁ hnd
  have h₂ : List.Sorted (fun a b : List String × V => keyLtB a.1 b.1 = true) (sortByKey l₂) :=
    sortByKey_strict l₂ hnd₂
  exact @List.eq_of_perm_of_sorted _ (fun a b : List String × V => keyLtB a.1 b.1 = true)
    ⟨fun a b h1 h2 => absurd (keyLtB_asym a.1 b.1 h1 h2) not_false⟩ _ _
    (((sortByKey_perm l₁).trans hperm).trans (sortByKey_perm l₂).symm) h₁ h₂

/-- The task coroutine for index `i` of the gathered list: `run_map` builds
one task per (key, value) item, and each task resolves to the pair
`(key, f key value)` tagged here with its argument position. -/
def taskResult {K V A : Type} (l : List (K × V)) (f : K → V → A) (i : Nat) :
    Option (Nat × (K × A)) :=
  (l[i]?).map (fun kv => (i, (kv.1, f kv.1 kv.2)))

/-- `async_utils.run_map` under an explicit completion schedule: tasks
finish in the order `sched` lists their argument positions, but
`asyncio.gather` reassembles the results by argument position (modelled by
sorting the tagged completions by position) before `dict(...)` consumes
them in that order. -/
def runMapSched {K V A : Type} (l : List (K × V)) (f : K → V → A) (sched : List Nat) :
    List (K × A) :=
  (List.insertionSort (fun a b : Nat × (K × A) => a.1 ≤ b.1)
      (sched.filterMap (taskResult l f))).map Prod.snd

theorem fst_taskResults {K V A : Type} (l : List (K × V)) (f : K → V → A)
    (sched : List Nat) :
    (sched.filterMap (taskResult l f)).map Prod.fst =
      sched.filter (fun i => (l[i]?).isSome) := by
  rw [List.map_filterMap]
  rw [← List.filterMap_eq_filter]
  apply List.filterMap_congr
  intro i _
  cases h : l[i]? with
  | none => simp [taskResult, h, Option.guard]
  | some kv => simp [taskResult, h, Option.guard]

theorem taskResults_nodup_fst {K V A : Type} (l : List (K × V)) (f : K → V → A)
    (sched : List Nat) (hnd : sched.Nodup) :
    ((sched.filterMap (taskResult l f)).map Prod.fst).Nodup := by
  rw [fst_taskResults]
  exact hnd.filter _

theorem sortTaskResults_strict {K V A : Type} (l : List (K × V)) (f : K → V → A)
    (sched : List Nat) (hnd : sched.Nodup) :
    (List.insertionSort (fun a b : Nat × (K × A) => a.1 ≤ b.1)
      (sched.filterMap (taskResult l f))).Pairwise (fun a b => a.1 < b.1) := by
  have hsorted := @List.sorted_insertionSort _ (fun a b : Nat × (K × A) => a.1 ≤ b.1) _
    ⟨fun a b => Nat.le_total a.1 b.1⟩ ⟨fun a b c h1 h2 => Nat.le_trans h1 h2⟩
    (sched.filterMap (taskResult l f))
  have hperm := List.perm_insertionSort (fun a b : Nat × (K × A) => a.1 ≤ b.1)
    (sched.filterMap (taskResult l f))
  have hnd2 : ((List.insertionSort (fun a b : Nat × (K × A) => a.1 ≤ b.1)
      (sched.filterMap (taskResult l f))).map Prod.fst).Nodup :=
    ((hperm.map Prod.fst).nodup_iff).mpr (taskResults_nodup_fst l f sched hnd)
  have hne := (List.pairwise_map).mp hnd2
  exact (hsorted.and hne).imp (fun h => lt_of_le_of_ne h.1 h.2)

/-- Schedule independence of the gather model: two completion orders that
run the same set of tasks produce identical assembled results. -/
theorem runMapSched_indep {K V A : Type} (l : List (K × V)) (f : K → V → A)
    (sched₁ sched₂ : List Nat) (hnd : sched₁.Nodup) (hperm : sched₁.Perm sched₂) :
    runMapSched l f sched₁ = runMapSched l f sched₂ := by
  have hnd₂ : sched₂.Nodup := hperm.nodup_iff.mp hnd
  unfold runMapSched
  congr 1
  refine @List.eq_of_perm_of_sorted _ (fun a b : Nat × (K × A) => a.1 < b.1)
    ⟨fun a b h1 h2 => absurd (h1.trans h2) (lt_irrefl _)⟩ _ _ ?_
    (sortTaskResults_strict l f sched₁ hnd) (sortTaskResults_strict l f sched₂ hnd₂)
  exact ((List.perm_insertionSort _ _).trans (hperm.filterMap _)).trans
    (List.perm_insertionSort _ _).symm

theorem filterMap_range_getElem {γ A : Type} (h : γ → A) :
    ∀ l : List γ, (List.range l.length).filterMap (fun i => (l[i]?).map h) = l.map h
  | [] => rfl
  | x :: xs => by
      rw [List.length_cons, List.range_succ_eq_map, List.filterMap_cons, List.filterMap_map]
      have h0 : ((x :: xs)[0]?).map h = some (h x) := by simp
      rw [h0]
      have hcomp : ((fun i => ((x :: xs)[i]?).map h) ∘ Nat.succ) =
          (fun i => (xs[i]?).map h) := by
        funext i
        simp [Function.comp]
      rw [hcomp, filterMap_range_getElem h xs, List.map_cons]

/-- The canonical schedule (tasks finish in argument order) assembles the
per-item results in input order. -/
theorem runMapSched_canonical {K V A : Type} (l : List (K × V)) (f : K → V → A) :
    runMapSched l f (List.range l.length) = l.map (fun kv => (kv.1, f kv.1 kv.2)) := by
  unfold runMapSched
  have hsorted : ((List.range l.length).filterMap (taskResult l f)).Pairwise
      (fun a b : Nat × (K × A) => a.1 ≤ b.1) := by
    have hfst : (((List.range l.length).filterMap (taskResult l f)).map Prod.fst).Pairwise
        (fun a b : Nat => a < b) := by
      rw [fst_taskResults]
      exact (List.pairwise_lt_range l.length).sublist (List.filter_sublist _)
    exact ((List.pairwise_map).mp hfst).imp le_of_lt
  rw [List.Sorted.insertionSort_eq hsorted, List.map_filterMap]
  have hcongr : ∀ i ∈ List.range l.length,
      ((taskResult l f i).map Prod.snd) = (l[i]?).map (fun kv => (kv.1, f kv.1 kv.2)) := by
    intro i _
    cases h : l[i]? with
    | none => simp [taskResult, h]
    | some kv => simp [taskResult, h]
  rw [List.filterMap_congr hcongr, filterMap_range_getElem _ l]

end GitTheta

namespace GitTheta

/-! ## Grouping a sorted flattened dict into its nested form

`unflatten` of the sorted clean results groups consecutive items by the
head component of their key paths.  `buildTree` performs that grouping
directly; relating it to `unflatten` via `flattenEntries` yields both the
success of `Metadata(...).unflatten()` and the lexicographic sortedness of
every nesting level of the result. -/

/-- Does the item's key path start with component `k`? -/
def headIs {β : Type} (k : String) (pb : List String × β) : Bool :=
  decide (pb.1.head? = some k)

/-- Drop the leading path component of an item. -/
def tailPair {β : Type} (pb : List String × β) : List String × β :=
  (pb.1.tail, pb.2)

/-- Termination measure: items plus total path length. -/
def pathMeasure {β : Type} (l : List (List String × β)) : Nat :=
  (l.map (fun pb => 1 + pb.1.length)).sum

theorem pathMeasure_cons {β : Type} (pb : List String × β) (l : List (List String × β)) :
    pathMeasure (pb :: l) = 1 + pb.1.length + pathMeasure l := by
  simp [pathMeasure]

theorem sum_le_sum_of_sublist : ∀ {l₁ l₂ : List Nat}, l₁.Sublist l₂ → l₁.sum ≤ l₂.sum := by
  intro l₁ l₂ h
  induction h with
  | slnil => exact Nat.le_refl 0
  | cons a _ ih => rw [List.sum_cons]; exact Nat.le_trans ih (Nat.le_add_left _ _)
  | cons₂ a _ ih => rw [List.sum_cons, List.sum_cons]; exact Nat.add_le_add_left ih a

theorem pathMeasure_sublist {β : Type} {l₁ l₂ : List (List String × β)}
    (h : l₁.Sublist l₂) : pathMeasure l₁ ≤ pathMeasure l₂ :=
  sum_le_sum_of_sublist (h.map _)

theorem pathMeasure_map_tailPair {β : Type} :
    ∀ l : List (List String × β), pathMeasure (l.map tailPair) ≤ pathMeasure l
  | [] => Nat.le_refl 0
  | pb :: l => by
      rw [List.map_cons, pathMeasure_cons, pathMeasure_cons]
      refine Nat.add_le_add ?_ (pathMeasure_map_tailPair l)
      refine Nat.add_le_add_left ?_ 1
      rw [tailPair, List.length_tail]
      exact Nat.sub_le _ _

theorem pathMeasure_inner_lt {β : Type} (k k2 : String) (ps : List String) (b : β)
    (rest : List (List String × β)) :
    pathMeasure ((k2 :: ps, b) :: (rest.takeWhile (headIs k)).map tailPair) <
      pathMeasure ((k :: k2 :: ps, b) :: rest) := by
  rw [pathMeasure_cons, pathMeasure_cons]
  dsimp only
  have h1 : pathMeasure ((rest.takeWhile (headIs k)).map tailPair) ≤ pathMeasure rest :=
    Nat.le_trans (pathMeasure_map_tailPair _) (pathMeasure_sublist (List.takeWhile_sublist _))
  have h2 : (k2 :: ps).length < (k :: k2 :: ps).length := by
    simp [Nat.lt_succ_self]
  omega

theorem pathMeasure_drop_lt {β : Type} (k k2 : String) (ps : List String) (b : β)
    (rest : List (List String × β)) :
    pathMeasure (rest.dropWhile (headIs k)) < pathMeasure ((k :: k2 :: ps, b) :: rest) := by
  rw [pathMeasure_cons]
  have h1 : pathMeasure (rest.dropWhile (headIs k)) ≤ pathMeasure rest :=
    pathMeasure_sublist (List.dropWhile_sublist _)
  omega

theorem pathMeasure_rest_lt {β : Type} (p : List String) (b : β)
    (rest : List (List String × β)) :
    pathMeasure rest < pathMeasure ((p, b) :: rest) := by
  rw [pathMeasure_cons]
  omega

/-- Group a flattened item list into nested-dict entries: consecutive items
whose paths share a head component become one sub-dictionary.  On the
sorted, ancestor-free item lists produced by `clean` this reconstructs
exactly the nested dict that `unflatten` builds. -/
def buildTree {β : Type} : List (List String × β) → List (String × Nested β)
  | [] => []
  | ([], _) :: rest => buildTree rest
  | ([k], b) :: rest => (k, .leaf b) :: buildTree rest
  | (k :: k2 :: ps, b) :: rest =>
      (k, .dict (buildTree ((k2 :: ps, b) :: (rest.takeWhile (headIs k)).map tailPair))) ::
        buildTree (rest.dropWhile (headIs k))
termination_by l => pathMeasure l
decreasing_by
  · exact pathMeasure_rest_lt _ _ _
  · exact pathMeasure_rest_lt _ _ _
  · exact pathMeasure_inner_lt _ _ _ _ _
  · exact pathMeasure_drop_lt _ _ _ _ _

theorem dropWhile_head_not {α : Type} (q : α → Bool) :
    ∀ (l : List α) (x : α) (xs : List α), l.dropWhile q = x :: xs → q x = false
  | [], x, xs => by intro h; exact absurd h (by simp)
  | y :: l, x, xs => by
      intro h
      rw [List.dropWhile_cons] at h
      by_cases hy : q y = true
      · rw [if_pos hy] at h
        exact dropWhile_head_not q l x xs h
      · rw [if_neg hy] at h
        cases h
        simpa using hy

end GitTheta

namespace GitTheta

mutual
/-- Every dictionary level of a nested value lists its keys in strictly
increasing lexicographic order. -/
def sortedValB {β : Type} : Nested β → Bool
  | .leaf _ => true
  | .dict es => sortedEntriesB es

/-- Entry-list form of `sortedValB`: the keys of this level are strictly
increasing and every sub-value is itself everywhere sorted. -/
def sortedEntriesB {β : Type} : List (String × Nested β) → Bool
  | [] => true
  | (k, v) :: rest =>
      sortedValB v && rest.all (fun kv => strLtB k kv.1) && sortedEntriesB rest
end

theorem sortedEntriesB_cons {β : Type} (k : String) (v : Nested β)
    (rest : List (String × Nested β)) :
    sortedEntriesB ((k, v) :: rest) =
      (sortedValB v && rest.all (fun kv => strLtB k kv.1) && sortedEntriesB rest) := rfl

theorem sortedEntriesB_nodup {β : Type} :
    ∀ es : List (String × Nested β), sortedEntriesB es = true → (keysOf es).Nodup
  | [], _ => List.nodup_nil
  | (k, v) :: rest, h => by
      rw [sortedEntriesB_cons, Bool.and_assoc, Bool.and_eq_true, Bool.and_eq_true] at h
      rw [keysOf, List.map_cons, List.nodup_cons]
      refine ⟨?_, sortedEntriesB_nodup rest h.2.2⟩
      intro hmem
      obtain ⟨kv, hkv, hk⟩ := List.mem_map.mp hmem
      have := List.all_eq_true.mp h.2.1 kv hkv
      rw [hk] at this
      rw [strLtB_irrefl k] at this
      exact absurd this (by simp)

theorem buildTree_ne_nil {β : Type} (p : List String) (b : β)
    (rest : List (List String × β)) (hp : p ≠ []) :
    buildTree ((p, b) :: rest) ≠ [] := by
  match p with
  | [] => exact absurd rfl hp
  | [k] => rw [buildTree]; simp
  | k :: k2 :: ps => rw [buildTree]; simp

/-- No key path in `ps` is a strict initial segment of another: in a
flattened nested dict, leaf addresses never nest below one another. -/
def AncestorFree (ps : List (List String)) : Prop :=
  ∀ p ∈ ps, ∀ q ∈ ps, ∀ r, p ++ r = q → r = []

/-- `q` strictly extends `p` as a key path (decidable form used to check
`AncestorFree` on concrete inputs). -/
def extendsKeyB (p q : List String) : Bool :=
  decide (q.take p.length = p) && decide (p.length < q.length)

theorem ancestorFree_of_bool (ps : List (List String))
    (h : ∀ p ∈ ps, ∀ q ∈ ps, extendsKeyB p q = false) : AncestorFree ps := by
  intro p hp q hq r hr
  have hx := h p hp q hq
  unfold extendsKeyB at hx
  rw [Bool.and_eq_false_iff] at hx
  have htake : q.take p.length = p := by rw [← hr, List.take_left]
  have hlen : q.length = p.length + r.length := by rw [← hr, List.length_append]
  rcases hx with hx | hx
  · exact absurd htake (of_decide_eq_false hx)
  · have := of_decide_eq_false hx
    rw [hlen] at this
    cases r with
    | nil => rfl
    | cons a as => exact absurd (by simp [Nat.lt_add_of_pos_right]) this

theorem clean_hyps_sublist {β : Type} {l' l : List (List String × β)} (hsub : l'.Sublist l)
    (h1 : ∀ pb ∈ l, pb.1 ≠ [])
    (h2 : l.Pairwise (fun a b => keyLtB a.1 b.1 = true))
    (h3 : AncestorFree (l.map Prod.fst)) :
    (∀ pb ∈ l', pb.1 ≠ []) ∧ l'.Pairwise (fun a b => keyLtB a.1 b.1 = true) ∧
      AncestorFree (l'.map Prod.fst) :=
  ⟨fun pb hpb => h1 pb (hsub.subset hpb), h2.sublist hsub,
   fun p hp q hq r hr => h3 p ((hsub.map _).subset hp) q ((hsub.map _).subset hq) r hr⟩

theorem keyLtB_cons_same (k : String) (xs ys : List String) :
    keyLtB (k :: xs) (k :: ys) = keyLtB xs ys := by
  simp [keyLtB, lexLtB, strLtB_irrefl k]

theorem keyLtB_nil_right (p : List String) : keyLtB p [] = false := by
  cases p <;> rfl

theorem keyLtB_cons_elim (a hb : String) (as tb : List String)
    (h : keyLtB (a :: as) (hb :: tb) = true) :
    strLtB a hb = true ∨ (a = hb ∧ keyLtB as tb = true) := by
  simp only [keyLtB, lexLtB] at h
  by_cases hab : strLtB a hb = true
  · exact Or.inl hab
  · rw [if_neg (by simpa using hab)] at h
    by_cases habe : a = hb
    · rw [if_pos habe] at h
      exact Or.inr ⟨habe, h⟩
    · rw [if_neg habe] at h
      exact absurd h (by simp)

theorem keyLtB_singleton_elim (k : String) (q : List String)
    (h : keyLtB [k] q = true) :
    ∃ hq tq, q = hq :: tq ∧ (strLtB k hq = true ∨ (k = hq ∧ tq ≠ [])) := by
  cases q with
  | nil => rw [keyLtB_nil_right] at h; exact absurd h (by simp)
  | cons hq tq =>
      refine ⟨hq, tq, rfl, ?_⟩
      rcases keyLtB_cons_elim k hq [] tq h with h' | h'
      · exact Or.inl h'
      · refine Or.inr ⟨h'.1, ?_⟩
        intro hc
        subst hc
        rw [keyLtB_irrefl] at h'
        exact absurd h'.2 (by simp)

theorem tk_head {β : Type} (k : String) (rest : List (List String × β)) :
    ∀ pb ∈ rest.takeWhile (headIs k), ∃ t, pb.1 = k :: t := by
  intro pb hm
  have h := List.mem_takeWhile_imp hm
  unfold headIs at h
  have h' := of_decide_eq_true h
  cases hp : pb.1 with
  | nil => rw [hp] at h'; exact absurd h' (by simp)
  | cons a t =>
      rw [hp] at h'
      simp only [List.head?_cons, Option.some.injEq] at h'
      exact ⟨t, by rw [h']⟩

end GitTheta

namespace GitTheta

theorem tailPair_cons {β : Type} (k : String) (t : List String) (v : β) :
    tailPair (k :: t, v) = (t, v) := rfl

theorem buildTree_keys {β : Type} :
    ∀ (l : List (List String × β)) (key : String), key ∈ keysOf (buildTree l) →
      ∃ pb, pb ∈ l ∧ pb.1.head? = some key
  | [], key => by
      intro h
      rw [buildTree] at h
      exact absurd h (by simp [keysOf])
  | ([], b) :: rest, key => by
      rw [buildTree]
      intro h
      obtain ⟨pb, hm, hh⟩ := buildTree_keys rest key h
      exact ⟨pb, List.mem_cons_of_mem _ hm, hh⟩
  | ([k], b) :: rest, key => by
      rw [buildTree]
      rw [keysOf, List.map_cons]
      intro h
      rcases List.mem_cons.mp h with h | h
      · exact ⟨([k], b), List.mem_cons_self _ _, by rw [h]; rfl⟩
      · obtain ⟨pb, hm, hh⟩ := buildTree_keys rest key h
        exact ⟨pb, List.mem_cons_of_mem _ hm, hh⟩
  | (k :: k2 :: ps, b) :: rest, key => by
      rw [buildTree]
      rw [keysOf, List.map_cons]
      intro h
      rcases List.mem_cons.mp h with h | h
      · exact ⟨(k :: k2 :: ps, b), List.mem_cons_self _ _, by rw [h]; rfl⟩
      · obtain ⟨pb, hm, hh⟩ := buildTree_keys (rest.dropWhile (headIs k)) key h
        exact ⟨pb, List.mem_cons_of_mem _ ((List.dropWhile_sublist _).subset hm), hh⟩
termination_by l _ => pathMeasure l
decreasing_by
  · exact pathMeasure_rest_lt _ _ _
  · exact pathMeasure_rest_lt _ _ _
  · exact pathMeasure_drop_lt _ _ _ _ _

theorem inner_hyps {β : Type} (k k2 : String) (ps : List String) (b : β)
    (rest : List (List String × β))
    (h1 : ∀ pb ∈ (k :: k2 :: ps, b) :: rest, pb.1 ≠ [])
    (h2 : ((k :: k2 :: ps, b) :: rest).Pairwise (fun a b => keyLtB a.1 b.1 = true))
    (h3 : AncestorFree (((k :: k2 :: ps, b) :: rest).map Prod.fst)) :
    (∀ pb ∈ (k2 :: ps, b) :: (rest.takeWhile (headIs k)).map tailPair, pb.1 ≠ []) ∧
    ((k2 :: ps, b) :: (rest.takeWhile (headIs k)).map tailPair).Pairwise
      (fun a b => keyLtB a.1 b.1 = true) ∧
    AncestorFree (((k2 :: ps, b) :: (rest.takeWhile (headIs k)).map tailPair).map Prod.fst) := by
  obtain ⟨hhead, htail⟩ := List.pairwise_cons.mp h2
  have hmemtail : ∀ pb ∈ (rest.takeWhile (headIs k)).map tailPair,
      (k :: pb.1, pb.2) ∈ rest ∧ (k :: pb.1, pb.2).1 = k :: pb.1 := by
    intro pb hpb
    obtain ⟨qb, hqb, hEq⟩ := List.mem_map.mp hpb
    obtain ⟨t, ht⟩ := tk_head k rest qb hqb
    obtain ⟨q1, q2⟩ := qb
    have ht1 : q1 = k :: t := ht
    subst ht1
    rw [tailPair_cons] at hEq
    rw [← hEq]
    exact ⟨(List.takeWhile_sublist _).subset hqb, rfl⟩
  have hmemfst : ∀ pb ∈ (k2 :: ps, b) :: (rest.takeWhile (headIs k)).map tailPair,
      (k :: pb.1, pb.2) ∈ (k :: k2 :: ps, b) :: rest := by
    intro pb hpb
    rcases List.mem_cons.mp hpb with h | h
    · rw [h]; exact List.mem_cons_self _ _
    · exact List.mem_cons_of_mem _ (hmemtail pb h).1
  refine ⟨?_, ?_, ?_⟩
  · intro pb hpb
    rcases List.mem_cons.mp hpb with h | h
    · rw [h]; simp
    · intro hc
      have hm := (hmemtail pb h).1
      rw [hc] at hm
      have : (k2 :: ps : List String) = [] := by
        refine h3 [k] ?_ (k :: k2 :: ps) ?_ (k2 :: ps) ?_
        · exact List.mem_map.mpr ⟨([k], pb.2), List.mem_cons_of_mem _ hm, rfl⟩
        · exact List.mem_map.mpr ⟨(k :: k2 :: ps, b), List.mem_cons_self _ _, rfl⟩
        · rfl
      exact absurd this (by simp)
  · refine List.pairwise_cons.mpr ⟨?_, ?_⟩
    · intro x hx
      obtain ⟨qb, hqb, hEq⟩ := List.mem_map.mp hx
      obtain ⟨t, ht⟩ := tk_head k rest qb hqb
      obtain ⟨q1, q2⟩ := qb
      have ht1 : q1 = k :: t := ht
      subst ht1
      rw [tailPair_cons] at hEq
      have hrel : keyLtB (k :: k2 :: ps) (k :: t) = true :=
        hhead (k :: t, q2) ((List.takeWhile_sublist _).subset hqb)
      rw [keyLtB_cons_same] at hrel
      rw [← hEq]
      exact hrel
    · have htk : (rest.takeWhile (headIs k)).Pairwise (fun a b => keyLtB a.1 b.1 = true) :=
        htail.sublist (List.takeWhile_sublist _)
      refine (List.pairwise_map).mpr (htk.imp_of_mem ?_)
      intro a c ha hc hrel
      obtain ⟨ta, hta⟩ := tk_head k rest a ha
      obtain ⟨tc, htc⟩ := tk_head k rest c hc
      obtain ⟨a1, a2⟩ := a
      obtain ⟨c1, c2⟩ := c
      have hta1 : a1 = k :: ta := hta
      have htc1 : c1 = k :: tc := htc
      subst hta1
      subst htc1
      rw [keyLtB_cons_same] at hrel
      rw [tailPair_cons, tailPair_cons]
      exact hrel
  · intro p hp q hq r hr
    refine h3 (k :: p) ?_ (k :: q) ?_ r ?_
    · obtain ⟨pb, hpb, hpEq⟩ := List.mem_map.mp hp
      exact List.mem_map.mpr ⟨(k :: pb.1, pb.2), hmemfst pb hpb, by rw [hpEq]⟩
    · obtain ⟨qb, hqb, hqEq⟩ := List.mem_map.mp hq
      exact List.mem_map.mpr ⟨(k :: qb.1, qb.2), hmemfst qb hqb, by rw [hqEq]⟩
    · rw [List.cons_append, hr]

end GitTheta

namespace GitTheta

/-- On a nonempty-path, strictly sorted, ancestor-free item list, `buildTree`
is a right inverse of `utils.flatten`: flattening the grouped tree yields the
item list back. -/
theorem buildTree_flatten {β : Type} :
    ∀ l : List (List String × β),
    (∀ pb ∈ l, pb.1 ≠ []) →
    l.Pairwise (fun a b => keyLtB a.1 b.1 = true) →
    AncestorFree (l.map Prod.fst) →
    flattenEntries (buildTree l) [] = l
  | [], _, _, _ => by rw [buildTree]; simp only [flattenEntries]
  | ([], b) :: rest, h1, _, _ => absurd rfl (h1 ([], b) (List.mem_cons_self _ _))
  | ([k], b) :: rest, h1, h2, h3 => by
      rw [buildTree]
      obtain ⟨hr1, hr2, hr3⟩ := clean_hyps_sublist (List.sublist_cons_self _ _) h1 h2 h3
      simp only [flattenEntries]
      rw [buildTree_flatten rest hr1 hr2 hr3]
      simp
  | (k :: k2 :: ps, b) :: rest, h1, h2, h3 => by
      rw [buildTree]
      obtain ⟨hi1, hi2, hi3⟩ := inner_hyps k k2 ps b rest h1 h2 h3
      obtain ⟨hd1, hd2, hd3⟩ := clean_hyps_sublist
        ((List.dropWhile_sublist (headIs k)).trans (List.sublist_cons_self _ _)) h1 h2 h3
      simp only [flattenEntries]
      rw [flattenEntries_under _ ([] ++ [k])]
      rw [buildTree_flatten ((k2 :: ps, b) :: (rest.takeWhile (headIs k)).map tailPair)
        hi1 hi2 hi3]
      rw [buildTree_flatten (rest.dropWhile (headIs k)) hd1 hd2 hd3]
      rw [List.map_cons]
      have hmap : ((rest.takeWhile (headIs k)).map tailPair).map
          (fun pb : List String × β => (([] : List String) ++ [k] ++ pb.1, pb.2)) =
          rest.takeWhile (headIs k) := by
        rw [List.map_map]
        have : ∀ qb ∈ rest.takeWhile (headIs k),
            ((fun pb : List String × β => (([] : List String) ++ [k] ++ pb.1, pb.2)) ∘ tailPair)
              qb = id qb := by
          intro qb hqb
          obtain ⟨t, ht⟩ := tk_head k rest qb hqb
          obtain ⟨q1, q2⟩ := qb
          have ht1 : q1 = k :: t := ht
          subst ht1
          simp [tailPair]
        rw [List.map_congr_left this, List.map_id]
      rw [hmap]
      simp only [List.nil_append, List.singleton_append]
      exact congrArg _ (List.takeWhile_append_dropWhile (headIs k) rest)
termination_by l => pathMeasure l
decreasing_by
  · exact pathMeasure_rest_lt _ _ _
  · exact pathMeasure_inner_lt _ _ _ _ _
  · exact pathMeasure_drop_lt _ _ _ _ _

end GitTheta

namespace GitTheta

/-- Key fact about the remainder after a head group: every item left after
`dropWhile (headIs k)` has a head component strictly above `k`. -/
theorem drop_heads_gt {β : Type} (k k2 : String) (ps : List String) (b : β)
    (rest : List (List String × β))
    (h1 : ∀ pb ∈ (k :: k2 :: ps, b) :: rest, pb.1 ≠ [])
    (h2 : ((k :: k2 :: ps, b) :: rest).Pairwise (fun a b => keyLtB a.1 b.1 = true)) :
    ∀ pb ∈ rest.dropWhile (headIs k), ∃ hq tq, pb.1 = hq :: tq ∧ strLtB k hq = true := by
  obtain ⟨hhead, htail⟩ := List.pairwise_cons.mp h2
  cases hdr : rest.dropWhile (headIs k) with
  | nil => intro pb hpb; rw [List.mem_nil_iff] at hpb; exact absurd hpb not_false
  | cons q0 dr =>
      have hq0f : headIs k q0 = false := dropWhile_head_not (headIs k) rest q0 dr hdr
      have hq0rest : q0 ∈ rest := by
        have : q0 ∈ rest.dropWhile (headIs k) := by rw [hdr]; exact List.mem_cons_self _ _
        exact (List.dropWhile_sublist _).subset this
      have hq0ne : q0.1 ≠ [] := h1 q0 (List.mem_cons_of_mem _ hq0rest)
      obtain ⟨h0, t0, hq01⟩ : ∃ h0 t0, q0.1 = h0 :: t0 := by
        cases hq : q0.1 with
        | nil => exact absurd hq hq0ne
        | cons h0 t0 => exact ⟨h0, t0, rfl⟩
      have hh0ne : h0 ≠ k := by
        intro hc
        unfold headIs at hq0f
        rw [hq01, hc] at hq0f
        simp at hq0f
      have hkh0 : strLtB k h0 = true := by
        have hrel : keyLtB (k :: k2 :: ps) q0.1 = true := hhead q0 hq0rest
        rw [hq01] at hrel
        rcases keyLtB_cons_elim k h0 (k2 :: ps) t0 hrel with h | h
        · exact h
        · exact absurd h.1.symm hh0ne
      intro pb hpb
      rcases List.mem_cons.mp hpb with h | h
      · rw [h, hq01]
        exact ⟨h0, t0, rfl, hkh0⟩
      · have hpbrest : pb ∈ rest := (List.dropWhile_sublist _).subset (by
          rw [hdr]; exact List.mem_cons_of_mem _ h)
        have hpbne : pb.1 ≠ [] := h1 pb (List.mem_cons_of_mem _ hpbrest)
        obtain ⟨hq, tq, hpb1⟩ : ∃ hq tq, pb.1 = hq :: tq := by
          cases hp : pb.1 with
          | nil => exact absurd hp hpbne
          | cons hq tq => exact ⟨hq, tq, rfl⟩
        have hdrp : (rest.dropWhile (headIs k)).Pairwise (fun a b => keyLtB a.1 b.1 = true) :=
          htail.sublist (List.dropWhile_sublist _)
        rw [hdr] at hdrp
        have hq0pb : keyLtB q0.1 pb.1 = true :=
          (List.pairwise_cons.mp hdrp).1 pb h
        rw [hq01, hpb1] at hq0pb
        rcases keyLtB_cons_elim h0 hq t0 tq hq0pb with hlt | heq
        · exact ⟨hq, tq, hpb1, strLtB_trans k h0 hq hkh0 hlt⟩
        · exact ⟨hq, tq, hpb1, by rw [← heq.1]; exact hkh0⟩

end GitTheta

namespace GitTheta

/-- On a nonempty-path, strictly sorted, ancestor-free item list, the
grouped tree is sorted at every nesting level and is a well-formed nested
dict (unique keys, no empty sub-dict). -/
theorem buildTree_sorted_wf {β : Type} :
    ∀ l : List (List String × β),
    (∀ pb ∈ l, pb.1 ≠ []) →
    l.Pairwise (fun a b => keyLtB a.1 b.1 = true) →
    AncestorFree (l.map Prod.fst) →
    sortedEntriesB (buildTree l) = true ∧ ∀ p ∈ buildTree l, WFVal p.2
  | [], _, _, _ => by
      rw [buildTree]
      exact ⟨rfl, fun p hp => absurd hp (List.not_mem_nil p)⟩
  | ([], b) :: rest, h1, _, _ => absurd rfl (h1 ([], b) (List.mem_cons_self _ _))
  | ([k], b) :: rest, h1, h2, h3 => by
      rw [buildTree]
      obtain ⟨hr1, hr2, hr3⟩ := clean_hyps_sublist (List.sublist_cons_self _ _) h1 h2 h3
      obtain ⟨ihs, ihw⟩ := buildTree_sorted_wf rest hr1 hr2 hr3
      have hhead := (List.pairwise_cons.mp h2).1
      have hall : ∀ kv ∈ buildTree rest, strLtB k kv.1 = true := by
        intro kv hkv
        obtain ⟨pb, hpb, hh⟩ := buildTree_keys rest kv.1
          (by rw [keysOf]; exact List.mem_map.mpr ⟨kv, hkv, rfl⟩)
        have hrel : keyLtB [k] pb.1 = true := hhead pb hpb
        obtain ⟨hq, tq, hpbeq, hcase⟩ := keyLtB_singleton_elim k pb.1 hrel
        rw [hpbeq, List.head?_cons, Option.some.injEq] at hh
        rcases hcase with hlt | ⟨hkeq, htqne⟩
        · rw [← hh]; exact hlt
        · exfalso
          have : tq = [] := by
            refine h3 [k] ?_ pb.1 ?_ tq ?_
            · exact List.mem_map.mpr ⟨([k], b), List.mem_cons_self _ _, rfl⟩
            · exact List.mem_map.mpr ⟨pb, List.mem_cons_of_mem _ hpb, rfl⟩
            · rw [hpbeq, ← hkeq]; rfl
          exact absurd this htqne
      constructor
      · rw [sortedEntriesB_cons]
        simp only [sortedValB, Bool.true_and]
        rw [Bool.and_eq_true]
        exact ⟨List.all_eq_true.mpr hall, ihs⟩
      · intro p hp
        rcases List.mem_cons.mp hp with h | h
        · rw [h]; exact WFVal.leaf b
        · exact ihw p h
  | (k :: k2 :: ps, b) :: rest, h1, h2, h3 => by
      rw [buildTree]
      obtain ⟨hi1, hi2, hi3⟩ := inner_hyps k k2 ps b rest h1 h2 h3
      obtain ⟨hd1, hd2, hd3⟩ := clean_hyps_sublist
        ((List.dropWhile_sublist (headIs k)).trans (List.sublist_cons_self _ _)) h1 h2 h3
      obtain ⟨iis, iiw⟩ := buildTree_sorted_wf
        ((k2 :: ps, b) :: (rest.takeWhile (headIs k)).map tailPair) hi1 hi2 hi3
      obtain ⟨ids, idw⟩ := buildTree_sorted_wf (rest.dropWhile (headIs k)) hd1 hd2 hd3
      have hall : ∀ kv ∈ buildTree (rest.dropWhile (headIs k)), strLtB k kv.1 = true := by
        intro kv hkv
        obtain ⟨pb, hpb, hh⟩ := buildTree_keys _ kv.1
          (by rw [keysOf]; exact List.mem_map.mpr ⟨kv, hkv, rfl⟩)
        obtain ⟨hq, tq, hpbeq, hlt⟩ := drop_heads_gt k k2 ps b rest h1 h2 pb hpb
        rw [hpbeq, List.head?_cons, Option.some.injEq] at hh
        rw [← hh]
        exact hlt
      constructor
      · rw [sortedEntriesB_cons]
        simp only [sortedValB]
        rw [Bool.and_eq_true, Bool.and_eq_true]
        exact ⟨⟨iis, List.all_eq_true.mpr hall⟩, ids⟩
      · intro p hp
        rcases List.mem_cons.mp hp with h | h
        · rw [h]
          exact WFVal.dict _ (buildTree_ne_nil (k2 :: ps) b _ (by simp))
            (sortedEntriesB_nodup _ iis) iiw
        · exact idw p h
termination_by l => pathMeasure l
decreasing_by
  · exact pathMeasure_rest_lt _ _ _
  · exact pathMeasure_inner_lt _ _ _ _ _
  · exact pathMeasure_drop_lt _ _ _ _ _

end GitTheta

namespace GitTheta

/-- Python `prev_metadata.get(param_keys)` on the flattened previous
metadata (an ordered association of key tuples to parameter records). -/
def lookupPath {β : Type} : List (List String × β) → List String → Option β
  | [], _ => none
  | (p, b) :: rest, k => if p = k then some b else lookupPath rest k

/-- The concurrent body of `filters.clean`: flatten (given here already
flattened), sort the items, run `_clean` on every (key, tensor) pair via
`run_map` under completion schedule `sched`, and unflatten the assembled
result dict into the nested `Metadata` document. -/
def cleanDriver {V : Type} (ctx : CleanCtx V) (prevMeta : List (List String × ParamMeta))
    (ckpt : List (List String × V)) (sched : List Nat) :
    Option (List (String × Nested ParamMeta)) :=
  unflatten (runMapSched (sortByKey ckpt)
    (fun k v => (cleanParam ctx (lookupPath prevMeta k) k v).meta) sched)

theorem unflatten_sorted {β : Type} (l : List (List String × β))
    (h1 : ∀ pb ∈ l, pb.1 ≠ [])
    (h2 : l.Pairwise (fun a b => keyLtB a.1 b.1 = true))
    (h3 : AncestorFree (l.map Prod.fst)) :
    unflatten l = some (buildTree l) ∧ sortedEntriesB (buildTree l) = true := by
  obtain ⟨hs, hw⟩ := buildTree_sorted_wf l h1 h2 h3
  refine ⟨?_, hs⟩
  have hnd : (keysOf (buildTree l)).Nodup := sortedEntriesB_nodup _ hs
  have hfold := foldInsert_flatten (buildTree l) [] hnd hw (fun _ _ => rfl)
  rw [buildTree_flatten l h1 h2 h3] at hfold
  rw [unflatten_eq_foldInsert, hfold]
  simp

theorem mapped_sorted_hyps {V A : Type} (ckpt : List (List String × V))
    (f : List String → V → A)
    (hnd : (ckpt.map Prod.fst).Nodup)
    (hne : ∀ pb ∈ ckpt, pb.1 ≠ [])
    (haf : AncestorFree (ckpt.map Prod.fst)) :
    (∀ pb ∈ (sortByKey ckpt).map (fun kv => (kv.1, f kv.1 kv.2)), pb.1 ≠ []) ∧
    ((sortByKey ckpt).map (fun kv => (kv.1, f kv.1 kv.2))).Pairwise
      (fun a b => keyLtB a.1 b.1 = true) ∧
    AncestorFree (((sortByKey ckpt).map (fun kv => (kv.1, f kv.1 kv.2))).map Prod.fst) := by
  have hfst : ((sortByKey ckpt).map (fun kv => (kv.1, f kv.1 kv.2))).map Prod.fst =
      (sortByKey ckpt).map Prod.fst := by
    rw [List.map_map]
    exact List.map_congr_left (fun kv _ => rfl)
  refine ⟨?_, ?_, ?_⟩
  · intro pb hpb
    obtain ⟨kv, hkv, hEq⟩ := List.mem_map.mp hpb
    have : kv ∈ ckpt := (sortByKey_perm ckpt).subset hkv
    rw [← hEq]
    exact hne kv this
  · exact (List.pairwise_map).mpr ((sortByKey_strict ckpt hnd).imp (fun h => h))
  · rw [hfst]
    intro p hp q hq r hr
    have hmm : ∀ x, x ∈ (sortByKey ckpt).map Prod.fst → x ∈ ckpt.map Prod.fst :=
      fun x hx => ((sortByKey_perm ckpt).map Prod.fst).subset hx
    exact haf p (hmm p hp) q (hmm q hq) r hr

/-- C4: clean is deterministic.  For a checkpoint with unique, nonempty,
non-nested parameter key tuples: (i) cleaning any dict-iteration-order
permutation of the checkpoint items under any completion schedule of the
per-parameter tasks returns exactly the result of cleaning the canonical
ordering under the canonical (argument-order) schedule; (ii) that result is
a metadata document whose keys are in strictly increasing lexicographic
order at every nesting level; (iii) hence the serialized bytes agree. -/
theorem clean_deterministic {V : Type} (ctx : CleanCtx V)
    (prevMeta : List (List String × ParamMeta))
    (ckpt ckpt₂ : List (List String × V)) (sched : List Nat)
    (hnd : (ckpt.map Prod.fst).Nodup)
    (hne : ∀ pb ∈ ckpt, pb.1 ≠ [])
    (haf : AncestorFree (ckpt.map Prod.fst))
    (hperm : ckpt₂.Perm ckpt)
    (hsched : sched.Perm (List.range ckpt.length)) :
    cleanDriver ctx prevMeta ckpt₂ sched =
      cleanDriver ctx prevMeta ckpt (List.range ckpt.length) ∧
    (∃ es, cleanDriver ctx prevMeta ckpt (List.range ckpt.length) = some es ∧
      sortedEntriesB es = true) ∧
    Option.bind (cleanDriver ctx prevMeta ckpt₂ sched) serializeBytes =
      Option.bind (cleanDriver ctx prevMeta ckpt (List.range ckpt.length)) serializeBytes := by
  have hnd₂ : (ckpt₂.map Prod.fst).Nodup := ((hperm.map Prod.fst).nodup_iff).mpr hnd
  have hsort : sortByKey ckpt₂ = sortByKey ckpt := sortByKey_eq_of_perm ckpt₂ ckpt hperm hnd₂
  have hlen : (sortByKey ckpt).length = ckpt.length := (sortByKey_perm ckpt).length_eq
  have hndsched : sched.Nodup := (hsched.nodup_iff).mpr (List.nodup_range _)
  have hcanon : ∀ sched', sched'.Nodup → sched'.Perm (List.range ckpt.length) →
    runMapSched (sortByKey ckpt)
      (fun k v => (cleanParam ctx (lookupPath prevMeta k) k v).meta) sched' =
    (sortByKey ckpt).map
      (fun kv => (kv.1, (cleanParam ctx (lookupPath prevMeta kv.1) kv.1 kv.2).meta)) := by
    intro sched' hnds hps
    rw [runMapSched_indep _ _ sched' (List.range (sortByKey ckpt).length) hnds (by
      rw [hlen]; exact hps)]
    exact runMapSched_canonical _ _
  have hmain : cleanDriver ctx prevMeta ckpt₂ sched =
      cleanDriver ctx prevMeta ckpt (List.range ckpt.length) := by
    unfold cleanDriver
    rw [hsort, hcanon sched hndsched hsched,
      hcanon (List.range ckpt.length) (List.nodup_range _) (List.Perm.refl _)]
  refine ⟨hmain, ?_, by rw [hmain]⟩
  obtain ⟨hh1, hh2, hh3⟩ := mapped_sorted_hyps ckpt
    (fun k v => (cleanParam ctx (lookupPath prevMeta k) k v).meta) hnd hne haf
  obtain ⟨hu, hs⟩ := unflatten_sorted _ hh1 hh2 hh3
  refine ⟨_, ?_, hs⟩
  unfold cleanDriver
  rw [hcanon (List.range ckpt.length) (List.nodup_range _) (List.Perm.refl _)]
  exact hu

end GitTheta

namespace GitTheta

/-- Witness for C4: a two-parameter checkpoint given in reversed dict order
and cleaned under the reversed completion schedule yields exactly the
canonical-order result. -/
theorem clean_deterministic_witness :
    cleanDriver
      (⟨fun _ _ => ⟨"(1,)", "float32", [0]⟩, fun _ => false, fun _ _ => 0,
        fun _ _ => true, fun _ _ => (⟨"v1", "", "0"⟩, none), 1/100000000, 1/1000000,
        "dense", ""⟩ : CleanCtx Unit) []
      [(["a"], ()), (["b"], ())] [1, 0] =
    cleanDriver
      (⟨fun _ _ => ⟨"(1,)", "float32", [0]⟩, fun _ => false, fun _ _ => 0,
        fun _ _ => true, fun _ _ => (⟨"v1", "", "0"⟩, none), 1/100000000, 1/1000000,
        "dense", ""⟩ : CleanCtx Unit) []
      [(["b"], ()), (["a"], ())] (List.range 2) :=
  (clean_deterministic _ [] [(["b"], ()), (["a"], ())] [(["a"], ()), (["b"], ())] [1, 0]
    (by decide) (by decide) (ancestorFree_of_bool _ (by decide)) (by decide) (by decide)).1

end GitTheta

namespace GitTheta

/-! ## The low-memory clean loop (`filters.clean`, `EnvVarConstants.LOW_MEMORY`)

Modelled from the spec: the low-memory switch is the environment flag
`GIT_THETA_LOW_MEMORY` surfaced as `EnvVarConstants.LOW_MEMORY`.
`filters.py` consults that attribute, but the `utils.py` of this source
snapshot does not define it, so the flag itself is modelled from the
spec as a boolean; the drain loop below is translated from the
`filters.py` branch body (lines 112-129), which is present. -/

/-- The low-memory loop body: walk the sorted keys one at a time, pop the
item (dropping the dict's reference to the tensor), run `_clean` on it
serially, and append the result to the output dict. -/
def drainClean {V : Type} (f : List String → V → ParamMeta) :
    List (List String × V) → List (List String × ParamMeta) → List (List String × ParamMeta)
  | [], acc => acc
  | (k, v) :: rest, acc => drainClean f rest (acc ++ [(k, f k v)])

/-- The low-memory branch of `clean`: serial drain, then
`Metadata(meta).unflatten()`. -/
def cleanLowMemory {V : Type} (ctx : CleanCtx V) (prevMeta : List (List String × ParamMeta))
    (ckpt : List (List String × V)) : Option (List (String × Nested ParamMeta)) :=
  unflatten (drainClean (fun k v => (cleanParam ctx (lookupPath prevMeta k) k v).meta)
    (sortByKey ckpt) [])

/-- `clean`'s dispatch on the low-memory flag (modelled from the spec, see
the section comment): when set, take the serial drain loop, else the
concurrent `run_map` path. -/
def cleanFilter {V : Type} (lowMemory : Bool) (ctx : CleanCtx V)
    (prevMeta : List (List String × ParamMeta)) (ckpt : List (List String × V))
    (sched : List Nat) : Option (List (String × Nested ParamMeta)) :=
  if lowMemory then cleanLowMemory ctx prevMeta ckpt
  else cleanDriver ctx prevMeta ckpt sched

theorem drainClean_eq_map {V : Type} (f : List String → V → ParamMeta) :
    ∀ (l : List (List String × V)) (acc : List (List String × ParamMeta)),
    drainClean f l acc = acc ++ l.map (fun kv => (kv.1, f kv.1 kv.2))
  | [], acc => by simp [drainClean]
  | (k, v) :: rest, acc => by
      rw [drainClean, drainClean_eq_map f rest (acc ++ [(k, f k v)])]
      simp

/-- C9: with the low-memory flag set, `clean` runs the per-parameter step
serially over the sorted keys, dropping each reference as it goes, and
returns exactly the metadata document the concurrent path produces for the
same input under any completion schedule of its tasks. -/
theorem clean_low_memory_equiv {V : Type} (ctx : CleanCtx V)
    (prevMeta : List (List String × ParamMeta)) (ckpt : List (List String × V))
    (sched : List Nat) (hsched : sched.Perm (List.range ckpt.length)) :
    cleanFilter true ctx prevMeta ckpt sched = cleanFilter false ctx prevMeta ckpt sched := by
  unfold cleanFilter cleanLowMemory cleanDriver
  rw [if_pos rfl, if_neg (by simp)]
  congr 1
  rw [drainClean_eq_map _ (sortByKey ckpt) [], List.nil_append]
  have hlen : (sortByKey ckpt).length = ckpt.length := (sortByKey_perm ckpt).length_eq
  have hndsched : sched.Nodup := (hsched.nodup_iff).mpr (List.nodup_range _)
  rw [runMapSched_indep _ _ sched (List.range (sortByKey ckpt).length) hndsched (by
    rw [hlen]; exact hsched)]
  rw [runMapSched_canonical _ _]

/-- Witness for C9: the serial and concurrent paths agree on a concrete
two-parameter checkpoint with a reversed completion schedule. -/
theorem clean_low_memory_equiv_witness :
    cleanFilter true
      (⟨fun _ _ => ⟨"(1,)", "float32", [0]⟩, fun _ => false, fun _ _ => 0,
        fun _ _ => true, fun _ _ => (⟨"v1", "", "0"⟩, none), 1/100000000, 1/1000000,
        "dense", ""⟩ : CleanCtx Unit) []
      [(["b"], ()), (["a"], ())] [1, 0] =
    cleanFilter false
      (⟨fun _ _ => ⟨"(1,)", "float32", [0]⟩, fun _ => false, fun _ _ => 0,
        fun _ _ => true, fun _ _ => (⟨"v1", "", "0"⟩, none), 1/100000000, 1/1000000,
        "dense", ""⟩ : CleanCtx Unit) []
      [(["b"], ()), (["a"], ())] [1, 0] :=
  clean_low_memory_equiv _ [] [(["b"], ()), (["a"], ())] [1, 0] (by decide)

end GitTheta
